import Mathlib

/- Verification of the osmnx graph-truncation engine: a shallow embedding of
   truncate_graph_dist, truncate_graph_bbox, truncate_graph_polygon,
   remove_isolated_nodes and largest_component, together with proofs of the
   specified properties. -/

/-- An edge of a directed multigraph: endpoints, a key distinguishing parallel
edges, the numeric weight stored under the caller-named weight attribute, and
an opaque attribute payload. -/
structure Edge where
  u : Nat
  v : Nat
  key : Nat
  w : ℤ
  attr : Nat
deriving DecidableEq, Repr

/-- A directed multigraph as manipulated by the truncate module: nodes carry an
identifier plus an opaque attribute payload, edges are a list of Edge.
Mirrors the networkx MultiDiGraph content the code reads and writes. -/
structure Graph where
  nodes : List (Nat × Nat)
  edges : List Edge
deriving DecidableEq, Repr

/-- The node identifiers of a graph (networkx G.nodes). -/
def Graph.nodeIds (g : Graph) : List Nat := g.nodes.map Prod.fst

/-- Facts guaranteed for every networkx MultiDiGraph (distinct node ids, edge
endpoints present among the nodes) plus the collaborator assumption from the
spec that edge weights are non-negative. -/
def Graph.Wf (g : Graph) : Prop :=
  g.nodeIds.Nodup ∧ (∀ e ∈ g.edges, e.u ∈ g.nodeIds ∧ e.v ∈ g.nodeIds) ∧
    ∀ e ∈ g.edges, 0 ≤ e.w

instance (g : Graph) : Decidable g.Wf := by
  unfold Graph.Wf
  infer_instance

/-- Successors of a node (networkx G.successors, with multiplicity). -/
def succList (g : Graph) (u : Nat) : List Nat :=
  (g.edges.filter (fun e => e.u == u)).map Edge.v

/-- Predecessors of a node (networkx G.predecessors, with multiplicity). -/
def predList (g : Graph) (u : Nat) : List Nat :=
  (g.edges.filter (fun e => e.v == u)).map Edge.u

/-- The direction-agnostic neighbors of a node: union of successors and
predecessors, as computed at truncate.py line 163 and as the adjacency
underlying weak connectivity. -/
def nbrList (g : Graph) (u : Nat) : List Nat := succList g u ++ predList g u

/-- Direction-agnostic incident-edge count of a node (networkx
MultiDiGraph.degree: out-edges plus in-edges, self-loops counted twice). -/
def Graph.degree (g : Graph) (n : Nat) : Nat :=
  (g.edges.filter (fun e => e.u == n)).length +
    (g.edges.filter (fun e => e.v == n)).length

/-- Remove a set of nodes and every edge incident to one of them (networkx
G.remove_nodes_from applied to a freshly copied graph). -/
def Graph.removeNodes (g : Graph) (s : List Nat) : Graph :=
  { nodes := g.nodes.filter (fun p => !(decide (p.1 ∈ s))),
    edges := g.edges.filter (fun e => !(decide (e.u ∈ s)) && !(decide (e.v ∈ s))) }

/-- The subgraph induced on a node set, materialized as a fresh mutable graph
(nx.MultiDiGraph (G.subgraph largest_cc) at truncate.py line 242). -/
def inducedSubgraph (g : Graph) (c : List Nat) : Graph :=
  { nodes := g.nodes.filter (fun p => decide (p.1 ∈ c)),
    edges := g.edges.filter (fun e => decide (e.u ∈ c) && decide (e.v ∈ c)) }

/-- Minimum of a list of weights, none when empty. -/
def qminOf : List ℤ → Option ℤ
  | [] => none
  | a :: rest =>
    match qminOf rest with
    | none => some a
    | some b => some (min a b)

/-- Weight of the lightest edge from u to v (how a weighted shortest-path
query treats parallel edges of a multigraph), defaulting to 0 when no such
edge exists (only applied along actual walks). -/
def mweight (g : Graph) (u v : Nat) : ℤ :=
  (qminOf ((g.edges.filter (fun e => e.u == u && e.v == v)).map Edge.w)).getD 0

/-- A walk is recorded as its start vertex together with the list of
successively visited vertices. walkB adj s t p means the walk starting at s
stepping through p ends at t, each step following the adjacency adj. -/
def walkB (adj : Nat → List Nat) : Nat → Nat → List Nat → Bool
  | s, t, [] => s == t
  | s, t, v :: rest => decide (v ∈ adj s) && walkB adj v t rest

/-- Last vertex of a walk with start s and step list p. -/
def lastv (s : Nat) : List Nat → Nat
  | [] => s
  | v :: rest => lastv v rest

/-- Cumulative weight of a walk from s through p, summing the lightest
parallel edge at each step. -/
def wWalk (g : Graph) : Nat → List Nat → ℤ
  | _, [] => 0
  | s, v :: rest => mweight g s v + wWalk g v rest

/-- Enumerate the step lists of every duplicate-free walk from cur to t that
avoids the already-visited vertices vis (vis always contains cur). Fuel bounds
the number of vertices a simple walk can visit. -/
def pathsAux (adj : Nat → List Nat) (t : Nat) : Nat → Nat → List Nat → List (List Nat)
  | 0, _, _ => []
  | fuel + 1, cur, vis =>
    if cur = t then [[]]
    else
      (((adj cur).filter (fun v => !(decide (v ∈ vis)))).map
        (fun v => (pathsAux adj t fuel v (v :: vis)).map (fun p => v :: p))).flatten

/-- The weighted shortest-path mapping of the external collaborator
nx.shortest_path_length (source s, weight attribute): minimum cumulative
weight over the (simple) directed paths from s, and no entry (none) for a
node unreachable from s. -/
def spl (g : Graph) (s t : Nat) : Option ℤ :=
  qminOf ((pathsAux (succList g) t (g.nodeIds.length + 1) s [s]).map (wWalk g s))

/-- Decidable reachability along an adjacency inside graph g, by simple-path
enumeration. -/
def reachB (g : Graph) (adj : Nat → List Nat) (s t : Nat) : Bool :=
  !(pathsAux adj t (g.nodeIds.length + 1) s [s]).isEmpty

/-- Decidable weak connectivity between two nodes (edge direction ignored). -/
def wconnB (g : Graph) (a b : Nat) : Bool := reachB g (nbrList g) a b

/-- Decidable strong connectivity between two nodes (mutual directed
reachability). -/
def sconnB (g : Graph) (a b : Nat) : Bool :=
  reachB g (succList g) a b && reachB g (succList g) b a

/-- Connectivity under the requested notion: strong when strongly, else weak. -/
def connB (g : Graph) (strongly : Bool) (a b : Nat) : Bool :=
  if strongly then sconnB g a b else wconnB g a b

/-- The connected component of a node under the requested notion, as computed
by the nx connected-components collaborator: all graph nodes connected to it. -/
def componentOf (g : Graph) (strongly : Bool) (n : Nat) : List Nat :=
  g.nodeIds.filter (fun m => connB g strongly n m)

/-- nx is_weakly_connected / is_strongly_connected on a nonempty graph: the
component of the first node holds every node. (On the null graph the nx call
raises; largest_component surfaces that error before consulting this.) -/
def isConnectedB (g : Graph) (strongly : Bool) : Bool :=
  match g.nodeIds with
  | [] => false
  | n0 :: _ => (componentOf g strongly n0).length == g.nodeIds.length

/-- Python max(components, key=len): the first list of maximal length. -/
def maxByLen (cs : List (List Nat)) : List Nat :=
  cs.foldl (fun best c => if best.length < c.length then c else best) []

/-- The largest connected component chosen at truncate.py line 238: the
first-seen component of maximal cardinality. -/
def largestCC (g : Graph) (strongly : Bool) : List Nat :=
  maxByLen (g.nodeIds.map (componentOf g strongly))

/-- The errors the truncate module can surface: NodeNotFound from the
shortest-path collaborator, NetworkXPointlessConcept from is_connected on the
null graph, and the ValueError raised for a polygon containing no node. -/
inductive Err where
  | nodeNotFound
  | nullGraph
  | emptyPolygon
deriving DecidableEq, Repr

/-- largest_component (truncate.py lines 210-247). Null-graph input makes the
nx is_connected collaborator raise; a connected graph is returned as is; and
otherwise the subgraph induced on the largest component is materialized. -/
def largest_component (g : Graph) (strongly : Bool) : Except Err Graph :=
  if g.nodeIds.isEmpty then .error .nullGraph
  else if isConnectedB g strongly then .ok g
  else .ok (inducedSubgraph g (largestCC g strongly))

/-- The isolated nodes of a graph: degree (direction-agnostic incident-edge
count) below one (truncate.py line 202). -/
def isolatedNodes (g : Graph) : List Nat :=
  g.nodeIds.filter (fun n => decide (g.degree n < 1))

/-- remove_isolated_nodes (truncate.py lines 184-207): copy the graph, then
delete every node with no incident edge. -/
def remove_isolated_nodes (g : Graph) : Graph :=
  g.removeNodes (isolatedNodes g)

/-- The nodes identified for removal by truncate_graph_dist line 58: computed
distance strictly greater than dist. -/
def distantNodes (g : Graph) (s : Nat) (dist : ℤ) : List Nat :=
  g.nodeIds.filter (fun k =>
    match spl g s k with
    | some v => decide (dist < v)
    | none => false)

/-- The nodes identified for removal by truncate_graph_dist line 59: absent
from the distance mapping. -/
def unreachableNodes (g : Graph) (s : Nat) : List Nat :=
  g.nodeIds.filter (fun k => (spl g s k).isNone)

/-- The removal set of truncate_graph_dist (union at line 63). -/
def distRemovalSet (g : Graph) (s : Nat) (dist : ℤ) : List Nat :=
  distantNodes g s dist ++ unreachableNodes g s

/-- truncate_graph_dist (truncate.py lines 19-72): the shortest-path
collaborator raises NodeNotFound for an absent source; otherwise the distant
and unreachable nodes are removed from a copy, and unless retain_all the
result is repaired by remove_isolated_nodes then largest_component (weak). -/
def truncate_graph_dist (g : Graph) (s : Nat) (dist : ℤ) (retain_all : Bool) :
    Except Err Graph :=
  if decide (s ∈ g.nodeIds) then
    let g1 := g.removeNodes (distRemovalSet g s dist)
    if retain_all then .ok g1
    else largest_component (remove_isolated_nodes g1) false
  else .error .nodeNotFound

/-- The removal set of truncate_graph_polygon (lines 156-167): all outside
nodes, or with truncate_by_edge only the outside nodes all of whose neighbors
are outside, judged against the original inside/outside partition. The
point-in-polygon collaborator is abstracted as the membership predicate
inside on node identifiers. -/
def polyRemovalSet (g : Graph) (inside : Nat → Bool) (truncate_by_edge : Bool) :
    List Nat :=
  let outside := g.nodeIds.filter (fun n => !(inside n))
  if truncate_by_edge then
    outside.filter (fun n => (nbrList g n).all (fun m => decide (m ∈ outside)))
  else outside

/-- truncate_graph_polygon (truncate.py lines 112-181): raise when no node
lies inside, else delete the removal set from a copy, and unless retain_all
repair with remove_isolated_nodes then largest_component (weak). -/
def truncate_graph_polygon (g : Graph) (inside : Nat → Bool)
    (retain_all truncate_by_edge : Bool) : Except Err Graph :=
  if (g.nodeIds.filter inside).isEmpty then .error .emptyPolygon
  else
    let g1 := g.removeNodes (polyRemovalSet g inside truncate_by_edge)
    if retain_all then .ok g1
    else largest_component (remove_isolated_nodes g1) false

/-- truncate_graph_bbox (truncate.py lines 75-109): convert the bounding box
to a polygon (external collaborator, abstracted into the inside predicate)
and delegate to truncate_graph_polygon. -/
def truncate_graph_bbox (g : Graph) (inside : Nat → Bool)
    (retain_all truncate_by_edge : Bool) : Except Err Graph :=
  truncate_graph_polygon g inside retain_all truncate_by_edge

/-- A store of live graph objects, modelling Python object identity: each
object identifier maps to the graph value it currently holds, and next is the
identifier the next allocation will use. -/
structure Heap where
  objs : List (Nat × Graph)
  next : Nat
deriving DecidableEq, Repr

/-- Every live object identifier is below the allocation counter. -/
def Heap.Wf (h : Heap) : Prop := ∀ p ∈ h.objs, p.1 < h.next

instance (h : Heap) : Decidable h.Wf := by
  unfold Heap.Wf
  infer_instance

/-- Read the graph value held by an object. -/
def hget (h : Heap) (i : Nat) : Option Graph :=
  (h.objs.find? (fun p => p.1 == i)).map Prod.snd

/-- Allocate a fresh object holding a graph value (G.copy(), or constructing
a new nx.MultiDiGraph): returns the extended heap and the new identifier. -/
def halloc (h : Heap) (g : Graph) : Heap × Nat :=
  ({ objs := (h.next, g) :: h.objs, next := h.next + 1 }, h.next)

/-- Mutate the graph object i in place (G.remove_nodes_from). -/
def hset (h : Heap) (i : Nat) (g : Graph) : Heap :=
  { objs := h.objs.map (fun p => if p.1 == i then (i, g) else p), next := h.next }

/-- remove_isolated_nodes at the object level, statement by statement:
G = G.copy() allocates, then G.remove_nodes_from mutates only that copy; the
copy's identifier is returned. (The none branch is never reached for a live
reference.) -/
def remove_isolated_nodes_obj (h : Heap) (i : Nat) : Heap × Nat :=
  match hget h i with
  | none => (h, i)
  | some g =>
    let al := halloc h g
    (hset al.1 al.2 (g.removeNodes (isolatedNodes g)), al.2)

/-- largest_component at the object level: the nx is_connected collaborator
raises on the null graph; an already-connected graph is returned as the very
object the caller passed in (no copy is made); otherwise a new graph object
is allocated for the induced subgraph. (The none branch is never reached for
a live reference.) -/
def largest_component_obj (h : Heap) (i : Nat) (strongly : Bool) :
    Heap × Except Err Nat :=
  match hget h i with
  | none => (h, .error .nullGraph)
  | some g =>
    if g.nodeIds.isEmpty then (h, .error .nullGraph)
    else if isConnectedB g strongly then (h, .ok i)
    else
      let al := halloc h (inducedSubgraph g (largestCC g strongly))
      (al.1, .ok al.2)

/-- truncate_graph_dist at the object level: compute the removal set from the
input object, copy it, delete the removal set from the copy only, then unless
retain_all chain the copy through remove_isolated_nodes and
largest_component. (The none branch is never reached for a live reference.) -/
def truncate_graph_dist_obj (h : Heap) (i : Nat) (s : Nat) (dist : ℤ)
    (retain_all : Bool) : Heap × Except Err Nat :=
  match hget h i with
  | none => (h, .error .nodeNotFound)
  | some g =>
    if decide (s ∈ g.nodeIds) then
      let al := halloc h g
      let h2 := hset al.1 al.2 (g.removeNodes (distRemovalSet g s dist))
      if retain_all then (h2, .ok al.2)
      else
        let ri := remove_isolated_nodes_obj h2 al.2
        largest_component_obj ri.1 ri.2 false
    else (h, .error .nodeNotFound)

/-- truncate_graph_polygon at the object level: the empty-result check fires
before any copy is made, so a failing call leaves the heap untouched. (The
none branch is never reached for a live reference.) -/
def truncate_graph_polygon_obj (h : Heap) (i : Nat) (inside : Nat → Bool)
    (retain_all truncate_by_edge : Bool) : Heap × Except Err Nat :=
  match hget h i with
  | none => (h, .error .emptyPolygon)
  | some g =>
    if (g.nodeIds.filter inside).isEmpty then (h, .error .emptyPolygon)
    else
      let al := halloc h g
      let h2 := hset al.1 al.2 (g.removeNodes (polyRemovalSet g inside truncate_by_edge))
      if retain_all then (h2, .ok al.2)
      else
        let ri := remove_isolated_nodes_obj h2 al.2
        largest_component_obj ri.1 ri.2 false

/-- truncate_graph_bbox at the object level: convert the box to a polygon and
delegate. -/
def truncate_graph_bbox_obj (h : Heap) (i : Nat) (inside : Nat → Bool)
    (retain_all truncate_by_edge : Bool) : Heap × Except Err Nat :=
  truncate_graph_polygon_obj h i inside retain_all truncate_by_edge

instance {ε α : Type} [DecidableEq ε] [DecidableEq α] : DecidableEq (Except ε α) :=
  fun a b =>
    match a, b with
    | .error x, .error y =>
      if h : x = y then .isTrue (by rw [h]) else
        .isFalse (by intro hc; injection hc; contradiction)
    | .error _, .ok _ => .isFalse (by intro hc; exact Except.noConfusion hc)
    | .ok _, .error _ => .isFalse (by intro hc; exact Except.noConfusion hc)
    | .ok x, .ok y =>
      if h : x = y then .isTrue (by rw [h]) else
        .isFalse (by intro hc; injection hc; contradiction)

/- Specification-side notions, stated independently of the enumeration that
implements the collaborators: reachability by arbitrary walks, connectivity,
connected components, shortest-path distance as a greatest lower bound over
all walks, and absence of dangling edges. -/

/-- Reachability along an adjacency: some walk leads from s to t. -/
def ReachesA (adj : Nat → List Nat) (s t : Nat) : Prop :=
  ∃ p, walkB adj s t p = true

/-- Directed reachability in a graph. -/
def GReaches (g : Graph) (s t : Nat) : Prop := ReachesA (succList g) s t

/-- Weak connectivity: reachability ignoring edge direction. -/
def WConn (g : Graph) (a b : Nat) : Prop := ReachesA (nbrList g) a b

/-- Strong connectivity: mutual directed reachability. -/
def SConn (g : Graph) (a b : Nat) : Prop := GReaches g a b ∧ GReaches g b a

/-- Connectivity under the requested notion. -/
def Conn (g : Graph) (strongly : Bool) (a b : Nat) : Prop :=
  if strongly then SConn g a b else WConn g a b

/-- The graph is fully connected under the requested notion. -/
def AllConn (g : Graph) (strongly : Bool) : Prop :=
  ∀ a ∈ g.nodeIds, ∀ b ∈ g.nodeIds, Conn g strongly a b

/-- q is the shortest-path weighted distance from s to t: attained by some
walk and a lower bound of the weight of every walk. -/
def IsShortestDist (g : Graph) (s t : Nat) (q : ℤ) : Prop :=
  (∃ p, walkB (succList g) s t p = true ∧ wWalk g s p = q) ∧
    ∀ p, walkB (succList g) s t p = true → q ≤ wWalk g s p

/-- Every edge's endpoints exist in the graph's node set. -/
def NoDangling (g : Graph) : Prop :=
  ∀ e ∈ g.edges, e.u ∈ g.nodeIds ∧ e.v ∈ g.nodeIds

/-- C is a connected component of g under the requested notion: a nonempty
set of graph nodes, pairwise connected, and closed under connectivity. -/
def IsCComp (g : Graph) (strongly : Bool) (C : Finset Nat) : Prop :=
  C.Nonempty ∧ (∀ a ∈ C, a ∈ g.nodeIds) ∧
    (∀ a ∈ C, ∀ b ∈ C, Conn g strongly a b) ∧
    ∀ a ∈ C, ∀ b, b ∈ g.nodeIds → Conn g strongly a b → b ∈ C

/- Lemmas about the list minimum. -/

theorem qminOf_eq_none_iff (l : List ℤ) : qminOf l = none ↔ l = [] := by
  cases l with
  | nil => simp [qminOf]
  | cons a rest =>
    simp only [qminOf]
    cases qminOf rest <;> simp

theorem qminOf_mem (l : List ℤ) (m : ℤ) (h : qminOf l = some m) : m ∈ l := by
  induction l generalizing m with
  | nil => simp [qminOf] at h
  | cons a rest ih =>
    simp only [qminOf] at h
    cases hr : qminOf rest with
    | none => rw [hr] at h; injection h with h; simp [h.symm]
    | some b =>
      rw [hr] at h
      injection h with h
      rcases min_cases a b with ⟨hm, _⟩ | ⟨hm, _⟩
      · simp [← h, hm]
      · right
        rw [← h, hm]
        exact ih b hr

theorem qminOf_le (l : List ℤ) (m : ℤ) (h : qminOf l = some m) :
    ∀ x ∈ l, m ≤ x := by
  induction l generalizing m with
  | nil => simp
  | cons a rest ih =>
    simp only [qminOf] at h
    intro x hx
    cases hr : qminOf rest with
    | none =>
      rw [hr] at h
      injection h with h
      rcases List.mem_cons.mp hx with hxa | hxr
      · rw [← h, hxa]
      · rw [qminOf_eq_none_iff] at hr
        rw [hr] at hxr
        simp at hxr
    | some b =>
      rw [hr] at h
      injection h with h
      rcases List.mem_cons.mp hx with hxa | hxr
      · rw [← h, hxa]; exact min_le_left a b
      · exact le_trans (h ▸ min_le_right a b) (ih b hr x hxr)

theorem qminOf_exists_le (l : List ℤ) (x : ℤ) (hx : x ∈ l) :
    ∃ m, qminOf l = some m ∧ m ≤ x := by
  cases hm : qminOf l with
  | none => rw [qminOf_eq_none_iff] at hm; rw [hm] at hx; simp at hx
  | some m => exact ⟨m, rfl, qminOf_le l m hm x hx⟩

/- Lemmas about walks. -/

theorem walkB_nil_iff (adj : Nat → List Nat) (s t : Nat) :
    walkB adj s t [] = true ↔ s = t := by
  simp [walkB]

theorem walkB_cons_iff (adj : Nat → List Nat) (s t v : Nat) (p : List Nat) :
    walkB adj s t (v :: p) = true ↔ v ∈ adj s ∧ walkB adj v t p = true := by
  simp [walkB]

theorem lastv_append (s : Nat) (p q : List Nat) :
    lastv s (p ++ q) = lastv (lastv s p) q := by
  induction p generalizing s with
  | nil => rfl
  | cons v rest ih => simp [lastv, ih]

theorem lastv_append_single (s a : Nat) (l : List Nat) :
    lastv s (l ++ [a]) = a := by
  rw [lastv_append]; rfl

theorem walk_append (adj : Nat → List Nat) (s m t : Nat) (p q : List Nat)
    (h1 : walkB adj s m p = true) (h2 : walkB adj m t q = true) :
    walkB adj s t (p ++ q) = true := by
  induction p generalizing s with
  | nil =>
    rw [walkB_nil_iff] at h1
    rw [h1]
    exact h2
  | cons v rest ih =>
    rw [walkB_cons_iff] at h1
    rw [List.cons_append, walkB_cons_iff]
    exact ⟨h1.1, ih v h1.2⟩

theorem walk_split (adj : Nat → List Nat) (s t : Nat) (p q : List Nat)
    (h : walkB adj s t (p ++ q) = true) :
    walkB adj s (lastv s p) p = true ∧ walkB adj (lastv s p) t q = true := by
  induction p generalizing s with
  | nil => exact ⟨by simp [walkB, lastv], h⟩
  | cons v rest ih =>
    rw [List.cons_append, walkB_cons_iff] at h
    have := ih v h.2
    exact ⟨by rw [walkB_cons_iff]; exact ⟨h.1, this.1⟩, by simpa [lastv] using this.2⟩

theorem walk_lastv (adj : Nat → List Nat) (s t : Nat) (p : List Nat)
    (h : walkB adj s t p = true) : lastv s p = t := by
  induction p generalizing s with
  | nil => rw [walkB_nil_iff] at h; exact h
  | cons v rest ih =>
    rw [walkB_cons_iff] at h
    simpa [lastv] using ih v h.2

theorem walk_last_mem (adj : Nat → List Nat) (s t : Nat) (p : List Nat)
    (h : walkB adj s t p = true) (hne : p ≠ []) : t ∈ p := by
  induction p generalizing s with
  | nil => exact absurd rfl hne
  | cons v rest ih =>
    rw [walkB_cons_iff] at h
    cases rest with
    | nil =>
      rw [walkB_nil_iff] at h
      simp [h.2.symm]
    | cons w rest2 => exact List.mem_cons_of_mem v (ih v h.2 (by simp))

theorem walk_last_step (adj : Nat → List Nat) (s t : Nat) (p : List Nat)
    (h : walkB adj s t p = true) (hne : p ≠ []) : ∃ a, t ∈ adj a := by
  induction p generalizing s with
  | nil => exact absurd rfl hne
  | cons v rest ih =>
    rw [walkB_cons_iff] at h
    cases rest with
    | nil =>
      rw [walkB_nil_iff] at h
      exact ⟨s, h.2 ▸ h.1⟩
    | cons w rest2 => exact ih v h.2 (by simp)

theorem walk_vertex_closed (adj : Nat → List Nat) (N : List Nat)
    (hcl : ∀ u v, v ∈ adj u → v ∈ N) (s t : Nat) (p : List Nat)
    (h : walkB adj s t p = true) : ∀ x ∈ p, x ∈ N := by
  induction p generalizing s with
  | nil => simp
  | cons v rest ih =>
    rw [walkB_cons_iff] at h
    intro x hx
    rcases List.mem_cons.mp hx with hxv | hxr
    · exact hxv ▸ hcl s v h.1
    · exact ih v h.2 x hxr

theorem walk_mono (adj adj2 : Nat → List Nat) (hsub : ∀ u, adj u ⊆ adj2 u)
    (s t : Nat) (p : List Nat) (h : walkB adj s t p = true) :
    walkB adj2 s t p = true := by
  induction p generalizing s with
  | nil => exact h
  | cons v rest ih =>
    rw [walkB_cons_iff] at h ⊢
    exact ⟨hsub s h.1, ih v h.2⟩

/- Lemmas about walk weights. -/

theorem mweight_nonneg (g : Graph) (hw : ∀ e ∈ g.edges, 0 ≤ e.w) (u v : Nat) :
    0 ≤ mweight g u v := by
  unfold mweight
  cases hm : qminOf ((g.edges.filter (fun e => e.u == u && e.v == v)).map Edge.w) with
  | none => simp
  | some m =>
    have := qminOf_mem _ _ hm
    simp only [List.mem_map, List.mem_filter] at this
    obtain ⟨e, ⟨he, _⟩, hew⟩ := this
    simpa [hew.symm] using hw e he

theorem wWalk_nonneg_of_mw (g : Graph) (hw : ∀ u v, 0 ≤ mweight g u v)
    (s : Nat) (p : List Nat) : 0 ≤ wWalk g s p := by
  induction p generalizing s with
  | nil => simp [wWalk]
  | cons v rest ih =>
    simp only [wWalk]
    exact add_nonneg (hw s v) (ih v)

theorem wWalk_append (g : Graph) (s : Nat) (p q : List Nat) :
    wWalk g s (p ++ q) = wWalk g s p + wWalk g (lastv s p) q := by
  induction p generalizing s with
  | nil => simp [wWalk, lastv]
  | cons v rest ih => simp [wWalk, lastv, ih v, add_assoc]

/- Cutting cycles out of walks. -/

theorem dup_split (l : List Nat) (h : ¬ l.Nodup) :
    ∃ xs a ys zs, l = xs ++ a :: (ys ++ a :: zs) := by
  induction l with
  | nil => simp at h
  | cons b rest ih =>
    by_cases hb : b ∈ rest
    · obtain ⟨s1, s2, hsplit⟩ := List.append_of_mem hb
      exact ⟨[], b, s1, s2, by simp [hsplit]⟩
    · have hrest : ¬ rest.Nodup := fun hn => h (List.nodup_cons.mpr ⟨hb, hn⟩)
      obtain ⟨xs, a, ys, zs, hsp⟩ := ih hrest
      exact ⟨b :: xs, a, ys, zs, by simp [hsp]⟩

theorem walk_cut (g : Graph) (adj : Nat → List Nat)
    (hw : ∀ u v, 0 ≤ mweight g u v) (s t : Nat) (p : List Nat)
    (h : walkB adj s t p = true) (hnd : ¬ (s :: p).Nodup) :
    ∃ q, walkB adj s t q = true ∧ q.length < p.length ∧
      wWalk g s q ≤ wWalk g s p := by
  obtain ⟨xs, a, ys, zs, hsp⟩ := dup_split (s :: p) hnd
  cases xs with
  | nil =>
    simp only [List.nil_append, List.cons.injEq] at hsp
    obtain ⟨hsa, hp⟩ := hsp
    subst hsa
    have hp2 : p = (ys ++ [s]) ++ zs := by simp [hp]
    have hspl := walk_split adj s t _ _ (hp2 ▸ h)
    rw [lastv_append_single] at hspl
    refine ⟨zs, hspl.2, ?_, ?_⟩
    · rw [hp2]; simp; omega
    · have e1 : wWalk g s p = wWalk g s (ys ++ [s]) + wWalk g s zs := by
        rw [hp2, wWalk_append, lastv_append_single]
      have h0 := wWalk_nonneg_of_mw g hw s (ys ++ [s])
      linarith
  | cons x xs2 =>
    simp only [List.cons_append, List.cons.injEq] at hsp
    obtain ⟨hsx, hp⟩ := hsp
    have hp2 : p = (xs2 ++ [a]) ++ ((ys ++ [a]) ++ zs) := by simp [hp]
    have hspl := walk_split adj s t _ _ (hp2 ▸ h)
    rw [lastv_append_single] at hspl
    have hspl2 := walk_split adj a t _ _ hspl.2
    rw [lastv_append_single] at hspl2
    refine ⟨(xs2 ++ [a]) ++ zs, walk_append adj s a t _ _ hspl.1 hspl2.2, ?_, ?_⟩
    · rw [hp2]; simp; omega
    · have e1 : wWalk g s p = wWalk g s (xs2 ++ [a]) + wWalk g a ((ys ++ [a]) ++ zs) := by
        rw [hp2, wWalk_append, lastv_append_single]
      have e2 : wWalk g a ((ys ++ [a]) ++ zs) = wWalk g a (ys ++ [a]) + wWalk g a zs := by
        rw [wWalk_append, lastv_append_single]
      have e3 : wWalk g s ((xs2 ++ [a]) ++ zs) = wWalk g s (xs2 ++ [a]) + wWalk g a zs := by
        rw [wWalk_append, lastv_append_single]
      have h0 := wWalk_nonneg_of_mw g hw a (ys ++ [a])
      linarith

theorem exists_nodup_walk (g : Graph) (adj : Nat → List Nat)
    (hw : ∀ u v, 0 ≤ mweight g u v) (s t : Nat) (p : List Nat)
    (h : walkB adj s t p = true) :
    ∃ q, walkB adj s t q = true ∧ (s :: q).Nodup ∧
      wWalk g s q ≤ wWalk g s p := by
  by_cases hnd : (s :: p).Nodup
  · exact ⟨p, h, hnd, le_refl _⟩
  · obtain ⟨q, hq, hlen, hwle⟩ := walk_cut g adj hw s t p h hnd
    obtain ⟨r, h1, h2, h3⟩ := exists_nodup_walk g adj hw s t q hq
    exact ⟨r, h1, h2, le_trans h3 hwle⟩
termination_by p.length
decreasing_by exact hlen

/- Soundness and completeness of the simple-path enumeration. -/

theorem pathsAux_sound (adj : Nat → List Nat) (t : Nat) :
    ∀ fuel cur vis p, p ∈ pathsAux adj t fuel cur vis →
      walkB adj cur t p = true ∧ p.Nodup ∧ ∀ x ∈ p, x ∉ vis := by
  intro fuel
  induction fuel with
  | zero => intro cur vis p hp; simp [pathsAux] at hp
  | succ n ih =>
    intro cur vis p hp
    simp only [pathsAux] at hp
    by_cases hct : cur = t
    · rw [if_pos hct] at hp
      simp only [List.mem_singleton] at hp
      subst hp
      exact ⟨by simp [walkB, hct], by simp, by simp⟩
    · rw [if_neg hct] at hp
      simp only [List.mem_flatten, List.mem_map, List.mem_filter] at hp
      obtain ⟨L, ⟨v, ⟨hva, hvv⟩, hL⟩, hpL⟩ := hp
      subst hL
      simp only [List.mem_map] at hpL
      obtain ⟨p0, hp0, hpp⟩ := hpL
      obtain ⟨hwk, hnd, havoid⟩ := ih v (v :: vis) p0 hp0
      subst hpp
      refine ⟨?_, ?_, ?_⟩
      · rw [walkB_cons_iff]; exact ⟨hva, hwk⟩
      · exact List.nodup_cons.mpr ⟨fun hv => (havoid v hv) (by simp), hnd⟩
      · intro x hx
        rcases List.mem_cons.mp hx with h1 | h2
        · subst h1; simpa using hvv
        · exact fun hxv => (havoid x h2) (List.mem_cons_of_mem v hxv)

theorem pathsAux_complete (adj : Nat → List Nat) (t : Nat) :
    ∀ fuel cur vis p, walkB adj cur t p = true → p.Nodup →
      (∀ x ∈ p, x ∉ vis) → cur ∈ vis → p.length + 1 ≤ fuel →
      p ∈ pathsAux adj t fuel cur vis := by
  intro fuel
  induction fuel with
  | zero => intro cur vis p _ _ _ _ hlen; omega
  | succ n ih =>
    intro cur vis p hwk hnd havoid hcur hlen
    simp only [pathsAux]
    by_cases hct : cur = t
    · rw [if_pos hct]
      cases p with
      | nil => simp
      | cons v rest =>
        have ht : t ∈ v :: rest := walk_last_mem adj cur t _ hwk (by simp)
        exact absurd (hct ▸ hcur) (havoid t ht)
    · rw [if_neg hct]
      cases p with
      | nil => rw [walkB_nil_iff] at hwk; exact absurd hwk hct
      | cons v rest =>
        rw [walkB_cons_iff] at hwk
        simp only [List.mem_flatten, List.mem_map, List.mem_filter]
        refine ⟨(pathsAux adj t n v (v :: vis)).map (fun p => v :: p),
          ⟨v, ⟨hwk.1, ?_⟩, rfl⟩, ?_⟩
        · simp only [Bool.not_eq_eq_eq_not, Bool.not_true, decide_eq_false_iff_not]
          exact havoid v (by simp)
        · simp only [List.mem_map]
          refine ⟨rest, ih v (v :: vis) rest hwk.2 (List.nodup_cons.mp hnd).2
            ?_ (by simp) (by simp at hlen; omega), rfl⟩
          intro x hx
          simp only [List.mem_cons]
          push_neg
          exact ⟨fun hxv => (List.nodup_cons.mp hnd).1 (hxv ▸ hx),
            havoid x (List.mem_cons_of_mem v hx)⟩

/- Membership and closure facts for the adjacency lists. -/

theorem mem_succList_iff (g : Graph) (u v : Nat) :
    v ∈ succList g u ↔ ∃ e ∈ g.edges, e.u = u ∧ e.v = v := by
  simp only [succList, List.mem_map, List.mem_filter, beq_iff_eq]
  constructor
  · rintro ⟨e, ⟨he, heu⟩, hev⟩; exact ⟨e, he, heu, hev⟩
  · rintro ⟨e, he, heu, hev⟩; exact ⟨e, ⟨he, heu⟩, hev⟩

theorem mem_predList_iff (g : Graph) (u v : Nat) :
    v ∈ predList g u ↔ ∃ e ∈ g.edges, e.v = u ∧ e.u = v := by
  simp only [predList, List.mem_map, List.mem_filter, beq_iff_eq]
  constructor
  · rintro ⟨e, ⟨he, heu⟩, hev⟩; exact ⟨e, he, heu, hev⟩
  · rintro ⟨e, he, heu, hev⟩; exact ⟨e, ⟨he, heu⟩, hev⟩

theorem mem_nbrList_iff (g : Graph) (u v : Nat) :
    v ∈ nbrList g u ↔
      ∃ e ∈ g.edges, (e.u = u ∧ e.v = v) ∨ (e.v = u ∧ e.u = v) := by
  simp only [nbrList, List.mem_append, mem_succList_iff, mem_predList_iff]
  constructor
  · rintro (⟨e, he, hc⟩ | ⟨e, he, hc⟩)
    · exact ⟨e, he, Or.inl hc⟩
    · exact ⟨e, he, Or.inr hc⟩
  · rintro ⟨e, he, hc | hc⟩
    · exact Or.inl ⟨e, he, hc⟩
    · exact Or.inr ⟨e, he, hc⟩

theorem nbrList_symm (g : Graph) (u v : Nat) :
    v ∈ nbrList g u ↔ u ∈ nbrList g v := by
  simp only [mem_nbrList_iff]
  constructor
  · rintro ⟨e, he, ⟨h1, h2⟩ | ⟨h1, h2⟩⟩
    · exact ⟨e, he, Or.inr ⟨h2, h1⟩⟩
    · exact ⟨e, he, Or.inl ⟨h2, h1⟩⟩
  · rintro ⟨e, he, ⟨h1, h2⟩ | ⟨h1, h2⟩⟩
    · exact ⟨e, he, Or.inr ⟨h2, h1⟩⟩
    · exact ⟨e, he, Or.inl ⟨h2, h1⟩⟩

theorem succList_closed (g : Graph) (hWf : g.Wf) :
    ∀ u v, v ∈ succList g u → v ∈ g.nodeIds := by
  intro u v hv
  rw [mem_succList_iff] at hv
  obtain ⟨e, he, _, hev⟩ := hv
  exact hev ▸ (hWf.2.1 e he).2

theorem nbrList_closed (g : Graph) (hWf : g.Wf) :
    ∀ u v, v ∈ nbrList g u → v ∈ g.nodeIds := by
  intro u v hv
  rw [mem_nbrList_iff] at hv
  obtain ⟨e, he, ⟨_, hev⟩ | ⟨_, hev⟩⟩ := hv
  · exact hev ▸ (hWf.2.1 e he).2
  · exact hev ▸ (hWf.2.1 e he).1

theorem succList_subset_nbrList (g : Graph) (u : Nat) :
    succList g u ⊆ nbrList g u :=
  List.subset_append_left _ _

theorem mweight_nil_graph (u v : Nat) :
    0 ≤ mweight { nodes := [], edges := [] } u v := by
  simp [mweight, qminOf, List.filter]

/- The enumeration-based reachability test agrees with walk reachability. -/

theorem reachB_iff (g : Graph) (adj : Nat → List Nat)
    (hcl : ∀ u v, v ∈ adj u → v ∈ g.nodeIds) (s t : Nat) :
    reachB g adj s t = true ↔ ReachesA adj s t := by
  unfold reachB
  constructor
  · intro h
    cases hp : pathsAux adj t (g.nodeIds.length + 1) s [s] with
    | nil => rw [hp] at h; simp at h
    | cons p rest =>
      have hmem : p ∈ pathsAux adj t (g.nodeIds.length + 1) s [s] := by
        rw [hp]; exact List.mem_cons_self p rest
      exact ⟨p, (pathsAux_sound adj t _ s [s] p hmem).1⟩
  · rintro ⟨p, hwk⟩
    obtain ⟨q, hq, hnd, _⟩ := exists_nodup_walk { nodes := [], edges := [] } adj
      mweight_nil_graph s t p hwk
    have hqsub : ∀ x ∈ q, x ∈ g.nodeIds :=
      walk_vertex_closed adj g.nodeIds hcl s t q hq
    have hlen : q.length ≤ g.nodeIds.length :=
      List.Subperm.length_le
        (List.subperm_of_subset (List.nodup_cons.mp hnd).2 hqsub)
    have hq2 : q ∈ pathsAux adj t (g.nodeIds.length + 1) s [s] :=
      pathsAux_complete adj t _ s [s] q hq (List.nodup_cons.mp hnd).2
        (fun x hx => by
          simp only [List.mem_singleton]
          intro hxs
          exact (List.nodup_cons.mp hnd).1 (hxs ▸ hx))
        (by simp) (by omega)
    cases hp : pathsAux adj t (g.nodeIds.length + 1) s [s] with
    | nil => rw [hp] at hq2; simp at hq2
    | cons a b => simp [hp]

/- The enumeration-based distance mapping is exactly the shortest-path
mapping of the spec: defined on the reachable nodes, with value the greatest
lower bound of walk weights. -/

theorem spl_eq_none_iff (g : Graph)
    (hcl : ∀ u v, v ∈ succList g u → v ∈ g.nodeIds) (s t : Nat) :
    spl g s t = none ↔ ¬ GReaches g s t := by
  show spl g s t = none ↔ ¬ ReachesA (succList g) s t
  rw [← reachB_iff g (succList g) hcl s t]
  unfold spl reachB
  rw [qminOf_eq_none_iff]
  cases hp : pathsAux (succList g) t (g.nodeIds.length + 1) s [s] <;> simp [hp]

theorem spl_min (g : Graph) (hw : ∀ u v, 0 ≤ mweight g u v)
    (hcl : ∀ u v, v ∈ succList g u → v ∈ g.nodeIds) (s t : Nat) (q : ℤ)
    (hq : spl g s t = some q) (p : List Nat)
    (hp : walkB (succList g) s t p = true) : q ≤ wWalk g s p := by
  obtain ⟨r, hr, hnd, hle⟩ := exists_nodup_walk g (succList g) hw s t p hp
  have hrsub : ∀ x ∈ r, x ∈ g.nodeIds :=
    walk_vertex_closed _ _ hcl s t r hr
  have hlen : r.length ≤ g.nodeIds.length :=
    List.Subperm.length_le
      (List.subperm_of_subset (List.nodup_cons.mp hnd).2 hrsub)
  have hrmem : r ∈ pathsAux (succList g) t (g.nodeIds.length + 1) s [s] :=
    pathsAux_complete _ t _ s [s] r hr (List.nodup_cons.mp hnd).2
      (fun x hx => by
        simp only [List.mem_singleton]
        intro hxs
        exact (List.nodup_cons.mp hnd).1 (hxs ▸ hx))
      (by simp) (by omega)
  have hmm : wWalk g s r ∈
      (pathsAux (succList g) t (g.nodeIds.length + 1) s [s]).map (wWalk g s) :=
    List.mem_map_of_mem _ hrmem
  exact le_trans (qminOf_le _ q hq _ hmm) hle

theorem spl_attained (g : Graph) (s t : Nat) (q : ℤ) (hq : spl g s t = some q) :
    ∃ p, walkB (succList g) s t p = true ∧ (s :: p).Nodup ∧ wWalk g s p = q := by
  have hm := qminOf_mem _ _ hq
  simp only [List.mem_map] at hm
  obtain ⟨p, hp, hwq⟩ := hm
  have hs := pathsAux_sound (succList g) t _ s [s] p hp
  refine ⟨p, hs.1, ?_, hwq⟩
  exact List.nodup_cons.mpr ⟨fun hsp => (hs.2.2 s hsp) (by simp), hs.2.1⟩

theorem spl_isSome_of_reach (g : Graph)
    (hcl : ∀ u v, v ∈ succList g u → v ∈ g.nodeIds) (s t : Nat)
    (h : GReaches g s t) : ∃ q, spl g s t = some q := by
  cases hq : spl g s t with
  | none => exact absurd h ((spl_eq_none_iff g hcl s t).mp hq)
  | some q => exact ⟨q, rfl⟩

theorem spl_iff_shortest (g : Graph) (hWf : g.Wf) (s t : Nat) (q : ℤ) :
    spl g s t = some q ↔ IsShortestDist g s t q := by
  have hw : ∀ u v, 0 ≤ mweight g u v := mweight_nonneg g hWf.2.2
  have hcl := succList_closed g hWf
  constructor
  · intro h
    obtain ⟨p, hp, _, hwq⟩ := spl_attained g s t q h
    exact ⟨⟨p, hp, hwq⟩, fun r hr => spl_min g hw hcl s t q h r hr⟩
  · rintro ⟨⟨p, hp, hwq⟩, hmin⟩
    obtain ⟨q0, hq0⟩ := spl_isSome_of_reach g hcl s t ⟨p, hp⟩
    obtain ⟨r, hrwalk, _, hrw⟩ := spl_attained g s t q0 hq0
    have h1 : q0 ≤ q := hwq ▸ spl_min g hw hcl s t q0 hq0 p hp
    have h2 : q ≤ q0 := hrw ▸ hmin r hrwalk
    rw [hq0]
    exact congrArg some (le_antisymm h1 h2)

/- Membership in the node and edge lists of the basic operations. -/

theorem mem_nodeIds_removeNodes (g : Graph) (R : List Nat) (x : Nat) :
    x ∈ (g.removeNodes R).nodeIds ↔ x ∈ g.nodeIds ∧ x ∉ R := by
  simp only [Graph.removeNodes, Graph.nodeIds, List.mem_map, List.mem_filter,
    Bool.not_eq_eq_eq_not, Bool.not_true, decide_eq_false_iff_not]
  constructor
  · rintro ⟨p, ⟨hp, hpr⟩, hpx⟩
    exact ⟨⟨p, hp, hpx⟩, hpx ▸ hpr⟩
  · rintro ⟨⟨p, hp, hpx⟩, hxr⟩
    exact ⟨p, ⟨hp, hpx ▸ hxr⟩, hpx⟩

theorem mem_edges_removeNodes (g : Graph) (R : List Nat) (e : Edge) :
    e ∈ (g.removeNodes R).edges ↔ e ∈ g.edges ∧ e.u ∉ R ∧ e.v ∉ R := by
  simp only [Graph.removeNodes, List.mem_filter, Bool.and_eq_true,
    Bool.not_eq_eq_eq_not, Bool.not_true, decide_eq_false_iff_not]

theorem mem_nodeIds_induced (g : Graph) (c : List Nat) (x : Nat) :
    x ∈ (inducedSubgraph g c).nodeIds ↔ x ∈ g.nodeIds ∧ x ∈ c := by
  simp only [inducedSubgraph, Graph.nodeIds, List.mem_map, List.mem_filter,
    decide_eq_true_eq]
  constructor
  · rintro ⟨p, ⟨hp, hpc⟩, hpx⟩
    exact ⟨⟨p, hp, hpx⟩, hpx ▸ hpc⟩
  · rintro ⟨⟨p, hp, hpx⟩, hxc⟩
    exact ⟨p, ⟨hp, hpx ▸ hxc⟩, hpx⟩

theorem mem_edges_induced (g : Graph) (c : List Nat) (e : Edge) :
    e ∈ (inducedSubgraph g c).edges ↔ e ∈ g.edges ∧ e.u ∈ c ∧ e.v ∈ c := by
  simp only [inducedSubgraph, List.mem_filter, Bool.and_eq_true, decide_eq_true_eq]

theorem mem_isolatedNodes (g : Graph) (n : Nat) :
    n ∈ isolatedNodes g ↔ n ∈ g.nodeIds ∧ g.degree n = 0 := by
  simp only [isolatedNodes, List.mem_filter, decide_eq_true_eq]
  constructor <;> rintro ⟨h1, h2⟩ <;> exact ⟨h1, by omega⟩

theorem degree_pos_of_edge (g : Graph) (e : Edge) (he : e ∈ g.edges) (n : Nat)
    (h : e.u = n ∨ e.v = n) : 1 ≤ g.degree n := by
  unfold Graph.degree
  rcases h with h | h
  · have : e ∈ g.edges.filter (fun e => e.u == n) :=
      List.mem_filter.mpr ⟨he, by simp [h]⟩
    have := List.ne_nil_of_mem this
    have := List.length_pos.mpr this
    omega
  · have : e ∈ g.edges.filter (fun e => e.v == n) :=
      List.mem_filter.mpr ⟨he, by simp [h]⟩
    have := List.ne_nil_of_mem this
    have := List.length_pos.mpr this
    omega

theorem degree_zero_no_edge (g : Graph) (n : Nat) (h : g.degree n = 0) :
    ∀ e ∈ g.edges, e.u ≠ n ∧ e.v ≠ n := by
  intro e he
  constructor <;> intro hc
  · exact absurd h (by have := degree_pos_of_edge g e he n (Or.inl hc); omega)
  · exact absurd h (by have := degree_pos_of_edge g e he n (Or.inr hc); omega)

/- Preservation of well-formedness. -/

theorem removeNodes_Wf (g : Graph) (R : List Nat) (h : g.Wf) :
    (g.removeNodes R).Wf := by
  refine ⟨?_, ?_, ?_⟩
  · exact h.1.sublist ((List.filter_sublist g.nodes).map Prod.fst)
  · intro e he
    rw [mem_edges_removeNodes] at he
    have hend := h.2.1 e he.1
    rw [mem_nodeIds_removeNodes, mem_nodeIds_removeNodes]
    exact ⟨⟨hend.1, he.2.1⟩, ⟨hend.2, he.2.2⟩⟩
  · intro e he
    rw [mem_edges_removeNodes] at he
    exact h.2.2 e he.1

theorem induced_Wf (g : Graph) (c : List Nat) (h : g.Wf) :
    (inducedSubgraph g c).Wf := by
  refine ⟨?_, ?_, ?_⟩
  · exact h.1.sublist ((List.filter_sublist g.nodes).map Prod.fst)
  · intro e he
    rw [mem_edges_induced] at he
    have hend := h.2.1 e he.1
    rw [mem_nodeIds_induced, mem_nodeIds_induced]
    exact ⟨⟨hend.1, he.2.1⟩, ⟨hend.2, he.2.2⟩⟩
  · intro e he
    rw [mem_edges_induced] at he
    exact h.2.2 e he.1

theorem remove_isolated_Wf (g : Graph) (h : g.Wf) :
    (remove_isolated_nodes g).Wf :=
  removeNodes_Wf g (isolatedNodes g) h

/- Connectivity is an equivalence on the nodes. -/

theorem reachesA_refl (adj : Nat → List Nat) (a : Nat) : ReachesA adj a a :=
  ⟨[], by simp [walkB]⟩

theorem reachesA_trans (adj : Nat → List Nat) (a b c : Nat)
    (h1 : ReachesA adj a b) (h2 : ReachesA adj b c) : ReachesA adj a c := by
  obtain ⟨p, hp⟩ := h1
  obtain ⟨q, hq⟩ := h2
  exact ⟨p ++ q, walk_append adj a b c p q hp hq⟩

theorem reachesA_symm_of_sym (adj : Nat → List Nat)
    (hsym : ∀ u v, v ∈ adj u → u ∈ adj v) (s t : Nat)
    (h : ReachesA adj s t) : ReachesA adj t s := by
  obtain ⟨p, hp⟩ := h
  induction p generalizing s with
  | nil =>
    rw [walkB_nil_iff] at hp
    exact hp ▸ reachesA_refl adj s
  | cons v rest ih =>
    rw [walkB_cons_iff] at hp
    obtain ⟨q, hq⟩ := ih v hp.2
    refine ⟨q ++ [s], walk_append adj t v s q [s] hq ?_⟩
    rw [walkB_cons_iff]
    exact ⟨hsym s v hp.1, by simp [walkB]⟩

theorem conn_refl (g : Graph) (strongly : Bool) (a : Nat) :
    Conn g strongly a a := by
  cases strongly
  · exact reachesA_refl _ a
  · exact ⟨reachesA_refl _ a, reachesA_refl _ a⟩

theorem conn_symm (g : Graph) (strongly : Bool) (a b : Nat)
    (h : Conn g strongly a b) : Conn g strongly b a := by
  cases strongly
  · exact reachesA_symm_of_sym (nbrList g)
      (fun u v hv => (nbrList_symm g u v).mp hv) a b h
  · exact ⟨h.2, h.1⟩

theorem conn_trans (g : Graph) (strongly : Bool) (a b c : Nat)
    (h1 : Conn g strongly a b) (h2 : Conn g strongly b c) :
    Conn g strongly a c := by
  cases strongly
  · exact reachesA_trans _ a b c h1 h2
  · exact ⟨reachesA_trans _ a b c h1.1 h2.1, reachesA_trans _ c b a h2.2 h1.2⟩

theorem connB_iff (g : Graph) (hWf : g.Wf) (strongly : Bool) (a b : Nat) :
    connB g strongly a b = true ↔ Conn g strongly a b := by
  cases strongly
  · exact reachB_iff g (nbrList g) (nbrList_closed g hWf) a b
  · show sconnB g a b = true ↔ SConn g a b
    rw [sconnB, Bool.and_eq_true,
      reachB_iff g (succList g) (succList_closed g hWf),
      reachB_iff g (succList g) (succList_closed g hWf)]
    exact Iff.rfl

theorem mem_componentOf (g : Graph) (hWf : g.Wf) (strongly : Bool) (n m : Nat) :
    m ∈ componentOf g strongly n ↔ m ∈ g.nodeIds ∧ Conn g strongly n m := by
  rw [componentOf, List.mem_filter, connB_iff g hWf]

theorem componentOf_nodup (g : Graph) (hWf : g.Wf) (strongly : Bool) (n : Nat) :
    (componentOf g strongly n).Nodup :=
  hWf.1.filter _

theorem self_mem_componentOf (g : Graph) (hWf : g.Wf) (strongly : Bool)
    (n : Nat) (hn : n ∈ g.nodeIds) : n ∈ componentOf g strongly n :=
  (mem_componentOf g hWf strongly n n).mpr ⟨hn, conn_refl g strongly n⟩

theorem isConnectedB_iff (g : Graph) (hWf : g.Wf) (strongly : Bool)
    (hne : g.nodeIds ≠ []) :
    isConnectedB g strongly = true ↔ AllConn g strongly := by
  rcases hn : g.nodeIds with _ | ⟨n0, rest⟩
  · exact absurd hn hne
  have hn0 : n0 ∈ g.nodeIds := by rw [hn]; exact List.mem_cons_self n0 rest
  have hred : isConnectedB g strongly =
      ((componentOf g strongly n0).length == g.nodeIds.length) := by
    unfold isConnectedB
    rw [hn]
  rw [hred, beq_iff_eq]
  constructor
  · intro hlen
    have heq : componentOf g strongly n0 = g.nodeIds :=
      (List.filter_sublist g.nodeIds).eq_of_length hlen
    intro a ha b hb
    have hca : connB g strongly n0 a = true :=
      (List.mem_filter.mp (heq ▸ ha : a ∈ componentOf g strongly n0)).2
    have hcb : connB g strongly n0 b = true :=
      (List.mem_filter.mp (heq ▸ hb : b ∈ componentOf g strongly n0)).2
    exact conn_trans g strongly a n0 b
      (conn_symm g strongly n0 a ((connB_iff g hWf strongly n0 a).mp hca))
      ((connB_iff g hWf strongly n0 b).mp hcb)
  · intro hall
    have heq : componentOf g strongly n0 = g.nodeIds := by
      apply List.filter_eq_self.mpr
      intro m hm
      exact (connB_iff g hWf strongly n0 m).mpr (hall n0 hn0 m hm)
    rw [heq]

/- The first-maximum selection of Python max(key=len). -/

theorem foldl_max_mem (cs : List (List Nat)) (acc : List Nat) :
    cs.foldl (fun best c => if best.length < c.length then c else best) acc ∈
      acc :: cs := by
  induction cs generalizing acc with
  | nil => simp
  | cons c rest ih =>
    simp only [List.foldl_cons]
    by_cases h : acc.length < c.length
    · rw [if_pos h]
      rcases List.mem_cons.mp (ih c) with h1 | h2
      · rw [h1]; exact List.mem_cons.mpr (Or.inr (List.mem_cons_self c rest))
      · exact List.mem_cons.mpr (Or.inr (List.mem_cons_of_mem c h2))
    · rw [if_neg h]
      rcases List.mem_cons.mp (ih acc) with h1 | h2
      · exact List.mem_cons.mpr (Or.inl h1)
      · exact List.mem_cons.mpr (Or.inr (List.mem_cons_of_mem c h2))

theorem foldl_max_le (cs : List (List Nat)) (acc : List Nat) :
    acc.length ≤
      (cs.foldl (fun best c => if best.length < c.length then c else best)
        acc).length ∧
      ∀ c ∈ cs,
        c.length ≤
          (cs.foldl (fun best c => if best.length < c.length then c else best)
            acc).length := by
  induction cs generalizing acc with
  | nil => exact ⟨le_refl _, by simp⟩
  | cons c rest ih =>
    simp only [List.foldl_cons]
    by_cases h : acc.length < c.length
    · rw [if_pos h]
      have := ih c
      refine ⟨le_trans (le_of_lt h) this.1, ?_⟩
      intro d hd
      rcases List.mem_cons.mp hd with h1 | h2
      · exact h1 ▸ this.1
      · exact this.2 d h2
    · rw [if_neg h]
      have := ih acc
      refine ⟨this.1, ?_⟩
      intro d hd
      rcases List.mem_cons.mp hd with h1 | h2
      · exact h1 ▸ le_trans (le_of_not_lt h) this.1
      · exact this.2 d h2

theorem largestCC_spec (g : Graph) (hWf : g.Wf) (strongly : Bool)
    (hne : g.nodeIds ≠ []) :
    (∃ n0 ∈ g.nodeIds, largestCC g strongly = componentOf g strongly n0) ∧
      ∀ n ∈ g.nodeIds,
        (componentOf g strongly n).length ≤ (largestCC g strongly).length := by
  have hmem := foldl_max_mem (g.nodeIds.map (componentOf g strongly)) []
  have hle := foldl_max_le (g.nodeIds.map (componentOf g strongly)) []
  constructor
  · rcases List.mem_cons.mp hmem with h1 | h2
    · rcases hn : g.nodeIds with _ | ⟨n0, rest⟩
      · exact absurd hn hne
      · exfalso
        have hn0 : n0 ∈ g.nodeIds := by rw [hn]; exact List.mem_cons_self n0 rest
        have hc0 : componentOf g strongly n0 ∈
            g.nodeIds.map (componentOf g strongly) :=
          List.mem_map_of_mem _ hn0
        have hlen := hle.2 _ hc0
        rw [h1] at hlen
        simp only [List.length_nil, Nat.le_zero, List.length_eq_zero] at hlen
        have hself := self_mem_componentOf g hWf strongly n0 hn0
        rw [hlen] at hself
        simp at hself
    · obtain ⟨n0, hn0, hc⟩ := List.mem_map.mp h2
      exact ⟨n0, hn0, hc.symm⟩
  · intro n hn
    exact hle.2 _ (List.mem_map_of_mem _ hn)

/- Facts about remove_isolated_nodes. -/

theorem remove_isolated_edges (g : Graph) :
    (remove_isolated_nodes g).edges = g.edges := by
  unfold remove_isolated_nodes Graph.removeNodes
  apply List.filter_eq_self.mpr
  intro e he
  simp only [Bool.and_eq_true, Bool.not_eq_eq_eq_not, Bool.not_true,
    decide_eq_false_iff_not]
  constructor <;> intro hmem <;> rw [mem_isolatedNodes] at hmem
  · have := degree_pos_of_edge g e he e.u (Or.inl rfl)
    omega
  · have := degree_pos_of_edge g e he e.v (Or.inr rfl)
    omega

theorem remove_isolated_degree (g : Graph) (n : Nat) :
    (remove_isolated_nodes g).degree n = g.degree n := by
  unfold Graph.degree
  rw [remove_isolated_edges]

theorem mem_nodeIds_remove_isolated (g : Graph) (n : Nat) :
    n ∈ (remove_isolated_nodes g).nodeIds ↔
      n ∈ g.nodeIds ∧ 1 ≤ g.degree n := by
  unfold remove_isolated_nodes
  rw [mem_nodeIds_removeNodes, mem_isolatedNodes]
  constructor
  · rintro ⟨h1, h2⟩
    refine ⟨h1, ?_⟩
    by_cases hd : g.degree n = 0
    · exact absurd ⟨h1, hd⟩ h2
    · omega
  · rintro ⟨h1, h2⟩
    exact ⟨h1, fun hc => by omega⟩

theorem removeNodes_nil (g : Graph) : g.removeNodes [] = g := by
  unfold Graph.removeNodes
  cases g with
  | mk ns es =>
    simp only [Graph.mk.injEq]
    constructor
    · apply List.filter_eq_self.mpr; intro a _; simp
    · apply List.filter_eq_self.mpr; intro a _; simp

/- Facts about largest_component and the no-dangling-edge invariant. -/

theorem largest_component_null (g : Graph) (strongly : Bool)
    (h : g.nodeIds = []) : largest_component g strongly = .error .nullGraph := by
  unfold largest_component
  rw [h]
  rfl

theorem noDangling_removeNodes (g : Graph) (R : List Nat) (h : NoDangling g) :
    NoDangling (g.removeNodes R) := by
  intro e he
  rw [mem_edges_removeNodes] at he
  have hend := h e he.1
  rw [mem_nodeIds_removeNodes, mem_nodeIds_removeNodes]
  exact ⟨⟨hend.1, he.2.1⟩, ⟨hend.2, he.2.2⟩⟩

theorem noDangling_induced (g : Graph) (c : List Nat) (h : NoDangling g) :
    NoDangling (inducedSubgraph g c) := by
  intro e he
  rw [mem_edges_induced] at he
  have hend := h e he.1
  rw [mem_nodeIds_induced, mem_nodeIds_induced]
  exact ⟨⟨hend.1, he.2.1⟩, ⟨hend.2, he.2.2⟩⟩

theorem noDangling_largest (g : Graph) (strongly : Bool) (g' : Graph)
    (h : NoDangling g) (hok : largest_component g strongly = .ok g') :
    NoDangling g' := by
  unfold largest_component at hok
  split at hok
  · exact absurd hok (by simp)
  split at hok
  · injection hok with hok
    exact hok ▸ h
  · injection hok with hok
    exact hok ▸ noDangling_induced g _ h

theorem noDangling_repair (g : Graph) (g' : Graph) (h : NoDangling g)
    (hok : largest_component (remove_isolated_nodes g) false = .ok g') :
    NoDangling g' :=
  noDangling_largest _ false g' (noDangling_removeNodes g _ h) hok

/- The removal set of truncate_graph_dist, through the distance mapping. -/

theorem mem_distRemovalSet (g : Graph) (s : Nat) (dist : ℤ) (n : Nat)
    (hn : n ∈ g.nodeIds) :
    n ∈ distRemovalSet g s dist ↔
      (∃ q, spl g s n = some q ∧ dist < q) ∨ spl g s n = none := by
  unfold distRemovalSet distantNodes unreachableNodes
  rw [List.mem_append, List.mem_filter, List.mem_filter]
  cases hq : spl g s n with
  | none => simp [hn, hq]
  | some q => simp [hn, hq]

/-- C9: remove_isolated_nodes removes exactly the nodes whose
direction-agnostic incident-edge count is below one, leaves the edge list
untouched, and is idempotent: a second application returns the same graph. -/
theorem C9_remove_isolated_exact_idempotent (g : Graph) :
    (∀ n, n ∈ (remove_isolated_nodes g).nodeIds ↔
        n ∈ g.nodeIds ∧ ¬ g.degree n < 1) ∧
    (remove_isolated_nodes g).edges = g.edges ∧
    remove_isolated_nodes (remove_isolated_nodes g) = remove_isolated_nodes g := by
  refine ⟨?_, remove_isolated_edges g, ?_⟩
  · intro n
    rw [mem_nodeIds_remove_isolated]
    constructor <;> rintro ⟨h1, h2⟩ <;> exact ⟨h1, by omega⟩
  · have hiso : isolatedNodes (remove_isolated_nodes g) = [] := by
      apply List.filter_eq_nil_iff.mpr
      intro n hn
      rw [mem_nodeIds_remove_isolated] at hn
      simp only [decide_eq_true_eq, not_lt, remove_isolated_degree]
      omega
    have hstep : remove_isolated_nodes (remove_isolated_nodes g) =
        (remove_isolated_nodes g).removeNodes
          (isolatedNodes (remove_isolated_nodes g)) := rfl
    rw [hstep, hiso, removeNodes_nil]

/-- C4: when no node of the graph lies inside the polygon,
truncate_graph_polygon fails with the empty-result error, and it does so
before any result graph is constructed: the object heap is left untouched,
so no partially-truncated graph is ever observable. -/
theorem C4_polygon_no_inside_raises (g : Graph) (inside : Nat → Bool)
    (hin : g.nodeIds.filter inside = []) (ra te : Bool) (h : Heap) (i : Nat)
    (hi : hget h i = some g) :
    truncate_graph_polygon g inside ra te = .error .emptyPolygon ∧
      truncate_graph_polygon_obj h i inside ra te =
        (h, .error .emptyPolygon) := by
  constructor
  · unfold truncate_graph_polygon
    rw [hin]
    rfl
  · have hcond : (g.nodeIds.filter inside).isEmpty = true := by rw [hin]; rfl
    unfold truncate_graph_polygon_obj
    rw [hi]
    exact if_pos hcond

def gC4 : Graph := { nodes := [(1, 0)], edges := [] }

def hC4 : Heap := { objs := [(0, gC4)], next := 1 }

theorem C4_witness :
    gC4.nodeIds.filter (fun _ => false) = [] ∧ hget hC4 0 = some gC4 ∧
      truncate_graph_polygon gC4 (fun _ => false) false false =
        .error .emptyPolygon ∧
      truncate_graph_polygon_obj hC4 0 (fun _ => false) false false =
        (hC4, .error .emptyPolygon) := by
  have h := C4_polygon_no_inside_raises gC4 (fun _ => false) (by rfl) false false
    hC4 0 (by rfl)
  exact ⟨by rfl, by rfl, h.1, h.2⟩

/-- C5: with truncate_by_edge, the removal set of truncate_graph_polygon is
exactly the set of outside nodes whose whole neighbor set (successors and
predecessors) lies outside, judged against the original inside/outside
partition in a single pass. -/
theorem C5_edge_retention_removal_set (g : Graph) (inside : Nat → Bool)
    (hk : g.nodeIds.filter inside ≠ []) (n : Nat) :
    n ∈ polyRemovalSet g inside true ↔
      (n ∈ g.nodeIds ∧ inside n = false) ∧
        ∀ m ∈ nbrList g n, m ∈ g.nodeIds ∧ inside m = false := by
  simp only [polyRemovalSet, if_true, List.mem_filter, List.all_eq_true,
    decide_eq_true_eq, Bool.not_eq_true']

def gC5 : Graph :=
  { nodes := [(1, 0), (2, 0), (3, 0), (4, 0)],
    edges := [⟨1, 2, 0, 1, 0⟩, ⟨2, 3, 0, 1, 0⟩, ⟨3, 4, 0, 1, 0⟩] }

def insideC5 : Nat → Bool := fun n => decide (n ≤ 2)

theorem C5_witness :
    gC5.nodeIds.filter insideC5 ≠ [] ∧
      3 ∉ polyRemovalSet gC5 insideC5 true ∧
      4 ∈ polyRemovalSet gC5 insideC5 true := by
  refine ⟨by decide, ?_, ?_⟩
  · intro hmem
    have h := (C5_edge_retention_removal_set gC5 insideC5 (by decide) 3).mp hmem
    have h2 := (h.2 2 (by decide)).2
    simp [insideC5] at h2
  · exact (C5_edge_retention_removal_set gC5 insideC5 (by decide) 4).mpr
      (by decide)

/-- C8: every operation produces graphs with no dangling edges: both
endpoints of every edge of any returned graph are nodes of that graph. -/
theorem C8_no_dangling (g : Graph) (hWf : g.Wf) :
    (∀ s dist ra g', truncate_graph_dist g s dist ra = .ok g' →
      NoDangling g') ∧
    (∀ inside ra te g', truncate_graph_polygon g inside ra te = .ok g' →
      NoDangling g') ∧
    (∀ inside ra te g', truncate_graph_bbox g inside ra te = .ok g' →
      NoDangling g') ∧
    NoDangling (remove_isolated_nodes g) ∧
    (∀ strongly g', largest_component g strongly = .ok g' → NoDangling g') := by
  have hnd : NoDangling g := hWf.2.1
  have hpoly : ∀ inside ra te g',
      truncate_graph_polygon g inside ra te = .ok g' → NoDangling g' := by
    intro inside ra te g' hok
    unfold truncate_graph_polygon at hok
    split at hok
    · exact Except.noConfusion hok
    · split at hok
      · injection hok with hok
        exact hok ▸ noDangling_removeNodes g _ hnd
      · exact noDangling_repair _ g' (noDangling_removeNodes g _ hnd) hok
  refine ⟨?_, hpoly, fun inside ra te g' => hpoly inside ra te g',
    noDangling_removeNodes g _ hnd, ?_⟩
  · intro s dist ra g' hok
    unfold truncate_graph_dist at hok
    split at hok
    · split at hok
      · injection hok with hok
        exact hok ▸ noDangling_removeNodes g _ hnd
      · exact noDangling_repair _ g' (noDangling_removeNodes g _ hnd) hok
    · exact Except.noConfusion hok
  · intro strongly g' hok
    exact noDangling_largest g strongly g' hnd hok

def gC8 : Graph :=
  { nodes := [(1, 0), (2, 0), (3, 0)], edges := [⟨1, 2, 0, 2, 0⟩] }

theorem C8_witness :
    gC8.Wf ∧ NoDangling (remove_isolated_nodes gC8) :=
  ⟨by decide, (C8_no_dangling gC8 (by decide)).2.2.2.1⟩

/-- C10: largest_component raises on the null graph, so truncate_graph_dist
and truncate_graph_polygon with retain_all false raise when the graph has
become empty after removing the removal set and the isolated nodes. -/
theorem C10_empty_result_raises :
    (∀ g strongly, g.nodeIds = [] →
      largest_component g strongly = .error .nullGraph) ∧
    (∀ g s dist, s ∈ g.nodeIds →
      (remove_isolated_nodes
        (g.removeNodes (distRemovalSet g s dist))).nodeIds = [] →
      truncate_graph_dist g s dist false = .error .nullGraph) ∧
    (∀ g inside te, g.nodeIds.filter inside ≠ [] →
      (remove_isolated_nodes
        (g.removeNodes (polyRemovalSet g inside te))).nodeIds = [] →
      truncate_graph_polygon g inside false te = .error .nullGraph) := by
  refine ⟨fun g strongly h => largest_component_null g strongly h, ?_, ?_⟩
  · intro g s dist hs hempty
    unfold truncate_graph_dist
    rw [if_pos (decide_eq_true hs)]
    show largest_component
      (remove_isolated_nodes (g.removeNodes (distRemovalSet g s dist))) false =
      .error .nullGraph
    exact largest_component_null _ false hempty
  · intro g inside te hk hempty
    unfold truncate_graph_polygon
    rw [if_neg (fun hc => hk (List.isEmpty_iff.mp hc))]
    show largest_component
      (remove_isolated_nodes
        (g.removeNodes (polyRemovalSet g inside te))) false =
      .error .nullGraph
    exact largest_component_null _ false hempty

def gC10 : Graph := { nodes := [(1, 0), (2, 0)], edges := [⟨1, 2, 0, 5, 0⟩] }

theorem C10_witness :
    (1 : Nat) ∈ gC10.nodeIds ∧
      (remove_isolated_nodes
        (gC10.removeNodes (distRemovalSet gC10 1 3))).nodeIds = [] ∧
      truncate_graph_dist gC10 1 3 false = .error .nullGraph ∧
      gC10.nodeIds.filter (fun n => n == 1) ≠ [] ∧
      (remove_isolated_nodes
        (gC10.removeNodes (polyRemovalSet gC10 (fun n => n == 1) false))).nodeIds
          = [] ∧
      truncate_graph_polygon gC10 (fun n => n == 1) false false =
        .error .nullGraph :=
  ⟨by decide, by decide,
    C10_empty_result_raises.2.1 gC10 1 3 (by decide) (by decide),
    by decide, by decide,
    C10_empty_result_raises.2.2 gC10 (fun n => n == 1) false (by decide)
      (by decide)⟩

/-- C1: the removal set of truncate_graph_dist consists exactly of the nodes
whose shortest-path weighted distance from the source exceeds dist together
with the nodes unreachable from the source; a node at exactly distance dist
is not removed. -/
theorem C1_dist_removal_set (g : Graph) (hWf : g.Wf) (s : Nat)
    (hs : s ∈ g.nodeIds) (dist : ℤ) (hd : 0 ≤ dist) (n : Nat)
    (hn : n ∈ g.nodeIds) :
    (n ∈ distRemovalSet g s dist ↔
      (∃ q, IsShortestDist g s n q ∧ dist < q) ∨ ¬ GReaches g s n) ∧
    ∀ q, IsShortestDist g s n q → q = dist →
      n ∉ distRemovalSet g s dist := by
  have hcl := succList_closed g hWf
  constructor
  · rw [mem_distRemovalSet g s dist n hn]
    constructor
    · rintro (⟨q, hq, hlt⟩ | hnone)
      · exact Or.inl ⟨q, (spl_iff_shortest g hWf s n q).mp hq, hlt⟩
      · exact Or.inr ((spl_eq_none_iff g hcl s n).mp hnone)
    · rintro (⟨q, hq, hlt⟩ | hnr)
      · exact Or.inl ⟨q, (spl_iff_shortest g hWf s n q).mpr hq, hlt⟩
      · exact Or.inr ((spl_eq_none_iff g hcl s n).mpr hnr)
  · intro q hq hqd hmem
    rw [mem_distRemovalSet g s dist n hn] at hmem
    have hspl : spl g s n = some q := (spl_iff_shortest g hWf s n q).mpr hq
    rcases hmem with ⟨q', hq', hlt⟩ | hnone
    · rw [hspl] at hq'
      injection hq' with hq'
      omega
    · rw [hspl] at hnone
      exact Option.noConfusion hnone

def gC1 : Graph :=
  { nodes := [(1, 0), (2, 0), (3, 0)], edges := [⟨1, 2, 0, 2, 0⟩] }

theorem C1_witness :
    gC1.Wf ∧ (1 : Nat) ∈ gC1.nodeIds ∧ (0 : ℤ) ≤ 2 ∧
      (2 : Nat) ∈ gC1.nodeIds ∧
      2 ∉ distRemovalSet gC1 1 2 ∧ 3 ∈ distRemovalSet gC1 1 2 := by
  refine ⟨by decide, by decide, by decide, by decide, ?_, by decide⟩
  exact (C1_dist_removal_set gC1 (by decide) 1 (by decide) 2 (by decide) 2
      (by decide)).2 2
    ((spl_iff_shortest gC1 (by decide) 1 2 2).mp (by decide)) rfl

/- Heap lemmas: reads, allocation, in-place update. -/

theorem hget_lt_next (h : Heap) (hW : h.Wf) (i : Nat) (g : Graph)
    (hi : hget h i = some g) : i < h.next := by
  unfold hget at hi
  cases hf : h.objs.find? (fun p => p.1 == i) with
  | none => rw [hf] at hi; simp at hi
  | some p =>
    have hmem := List.mem_of_find?_eq_some hf
    have hpi := List.find?_some hf
    have hlt := hW p hmem
    simp only [beq_iff_eq] at hpi
    omega

theorem hget_halloc_lt (h : Heap) (g : Graph) (i : Nat) (hl : i < h.next) :
    hget (halloc h g).1 i = hget h i := by
  unfold hget halloc
  rw [List.find?_cons_of_neg]
  simp only [beq_iff_eq]
  omega

theorem find?_map_set_ne (l : List (Nat × Graph)) (j : Nat) (g : Graph)
    (i : Nat) (hne : i ≠ j) :
    (l.map (fun p => if p.1 == j then (j, g) else p)).find?
        (fun p => p.1 == i) =
      l.find? (fun p => p.1 == i) := by
  induction l with
  | nil => rfl
  | cons a rest ih =>
    simp only [List.map_cons]
    by_cases ha : a.1 = j
    · rw [if_pos (by simp [ha])]
      rw [List.find?_cons_of_neg _ (by simp; omega),
        List.find?_cons_of_neg _ (by simp [ha]; omega)]
      exact ih
    · rw [if_neg (by simp [ha])]
      by_cases hai : a.1 = i
      · rw [List.find?_cons_of_pos _ (by simp [hai]),
          List.find?_cons_of_pos _ (by simp [hai])]
      · rw [List.find?_cons_of_neg _ (by simp [hai]),
          List.find?_cons_of_neg _ (by simp [hai])]
        exact ih

theorem hget_hset_ne (h : Heap) (j : Nat) (g : Graph) (i : Nat) (hne : i ≠ j) :
    hget (hset h j g) i = hget h i := by
  unfold hget hset
  rw [find?_map_set_ne h.objs j g i hne]

theorem halloc_Wf (h : Heap) (g : Graph) (hW : h.Wf) : (halloc h g).1.Wf := by
  intro p hp
  rcases List.mem_cons.mp hp with h1 | h2
  · rw [h1]
    show h.next < h.next + 1
    omega
  · have := hW p h2
    show p.1 < h.next + 1
    omega

theorem hset_Wf (h : Heap) (j : Nat) (g : Graph) (hj : j < h.next)
    (hW : h.Wf) : (hset h j g).Wf := by
  intro p hp
  simp only [hset, List.mem_map] at hp
  obtain ⟨q, hq, hqp⟩ := hp
  by_cases hqj : q.1 = j
  · rw [if_pos (by simp [hqj])] at hqp
    rw [← hqp]
    exact hj
  · rw [if_neg (by simp [hqj])] at hqp
    rw [← hqp]
    exact hW q hq

/- Each object-level operation leaves every pre-existing object unchanged
and preserves heap well-formedness. -/

theorem ri_obj_ext (h : Heap) (hW : h.Wf) (i : Nat) :
    (∀ k x, hget h k = some x →
      hget (remove_isolated_nodes_obj h i).1 k = some x) ∧
      (remove_isolated_nodes_obj h i).1.Wf := by
  cases hg : hget h i with
  | none =>
    have heq : remove_isolated_nodes_obj h i = (h, i) := by
      unfold remove_isolated_nodes_obj; rw [hg]
    rw [heq]
    exact ⟨fun k x hk => hk, hW⟩
  | some g =>
    have heq : remove_isolated_nodes_obj h i =
        (hset (halloc h g).1 h.next (g.removeNodes (isolatedNodes g)),
          h.next) := by
      unfold remove_isolated_nodes_obj; rw [hg]; rfl
    rw [heq]
    constructor
    · intro k x hk
      have hklt : k < h.next := hget_lt_next h hW k x hk
      rw [hget_hset_ne _ h.next _ k (by omega), hget_halloc_lt h g k hklt]
      exact hk
    · exact hset_Wf _ h.next _ (by show h.next < h.next + 1; omega)
        (halloc_Wf h g hW)

theorem lc_obj_ext (h : Heap) (hW : h.Wf) (i : Nat) (strongly : Bool) :
    (∀ k x, hget h k = some x →
      hget (largest_component_obj h i strongly).1 k = some x) ∧
      (largest_component_obj h i strongly).1.Wf := by
  cases hg : hget h i with
  | none =>
    have heq : largest_component_obj h i strongly = (h, .error .nullGraph) := by
      unfold largest_component_obj; rw [hg]
    rw [heq]
    exact ⟨fun k x hk => hk, hW⟩
  | some g =>
    by_cases hemp : g.nodeIds.isEmpty = true
    · have heq : largest_component_obj h i strongly =
          (h, .error .nullGraph) := by
        unfold largest_component_obj; rw [hg]
        exact if_pos hemp
      rw [heq]
      exact ⟨fun k x hk => hk, hW⟩
    · by_cases hc : isConnectedB g strongly = true
      · have heq : largest_component_obj h i strongly = (h, .ok i) := by
          unfold largest_component_obj; rw [hg]
          exact ((if_neg hemp).trans (if_pos hc))
        rw [heq]
        exact ⟨fun k x hk => hk, hW⟩
      · have heq : largest_component_obj h i strongly =
            ((halloc h (inducedSubgraph g (largestCC g strongly))).1,
              .ok h.next) := by
          unfold largest_component_obj; rw [hg]
          exact ((if_neg hemp).trans (if_neg hc))
        rw [heq]
        constructor
        · intro k x hk
          have hklt : k < h.next := hget_lt_next h hW k x hk
          rw [hget_halloc_lt h _ k hklt]
          exact hk
        · exact halloc_Wf h _ hW

theorem tp_obj_ext (h : Heap) (hW : h.Wf) (i : Nat) (inside : Nat → Bool)
    (ra te : Bool) :
    ∀ k x, hget h k = some x →
      hget (truncate_graph_polygon_obj h i inside ra te).1 k = some x := by
  cases hg : hget h i with
  | none =>
    have heq : truncate_graph_polygon_obj h i inside ra te =
        (h, .error .emptyPolygon) := by
      unfold truncate_graph_polygon_obj; rw [hg]
    rw [heq]
    exact fun k x hk => hk
  | some g =>
    by_cases hemp : (g.nodeIds.filter inside).isEmpty = true
    · have heq : truncate_graph_polygon_obj h i inside ra te =
          (h, .error .emptyPolygon) := by
        unfold truncate_graph_polygon_obj; rw [hg]
        exact if_pos hemp
      rw [heq]
      exact fun k x hk => hk
    · have h2W : (hset (halloc h g).1 h.next
          (g.removeNodes (polyRemovalSet g inside te))).Wf :=
        hset_Wf _ h.next _ (by show h.next < h.next + 1; omega)
          (halloc_Wf h g hW)
      have h2ext : ∀ k x, hget h k = some x →
          hget (hset (halloc h g).1 h.next
            (g.removeNodes (polyRemovalSet g inside te))) k = some x := by
        intro k x hk
        have hklt : k < h.next := hget_lt_next h hW k x hk
        rw [hget_hset_ne _ h.next _ k (by omega), hget_halloc_lt h g k hklt]
        exact hk
      cases hra : ra with
      | true =>
        have heq : truncate_graph_polygon_obj h i inside true te =
            (hset (halloc h g).1 h.next
              (g.removeNodes (polyRemovalSet g inside te)), .ok h.next) := by
          unfold truncate_graph_polygon_obj; rw [hg]
          exact if_neg hemp
        rw [heq]
        exact h2ext
      | false =>
        have heq : truncate_graph_polygon_obj h i inside false te =
            (let ri := remove_isolated_nodes_obj
                (hset (halloc h g).1 h.next
                  (g.removeNodes (polyRemovalSet g inside te))) h.next
             largest_component_obj ri.1 ri.2 false) := by
          unfold truncate_graph_polygon_obj; rw [hg]
          exact if_neg hemp
        rw [heq]
        intro k x hk
        have hri := ri_obj_ext (hset (halloc h g).1 h.next
          (g.removeNodes (polyRemovalSet g inside te))) h2W h.next
        have hlc := lc_obj_ext _ hri.2 (remove_isolated_nodes_obj
          (hset (halloc h g).1 h.next
            (g.removeNodes (polyRemovalSet g inside te))) h.next).2 false
        exact hlc.1 k x (hri.1 k x (h2ext k x hk))

theorem td_obj_ext (h : Heap) (hW : h.Wf) (i : Nat) (s : Nat) (dist : ℤ)
    (ra : Bool) :
    ∀ k x, hget h k = some x →
      hget (truncate_graph_dist_obj h i s dist ra).1 k = some x := by
  cases hg : hget h i with
  | none =>
    have heq : truncate_graph_dist_obj h i s dist ra =
        (h, .error .nodeNotFound) := by
      unfold truncate_graph_dist_obj; rw [hg]
    rw [heq]
    exact fun k x hk => hk
  | some g =>
    by_cases hsrc : decide (s ∈ g.nodeIds) = true
    · have h2W : (hset (halloc h g).1 h.next
          (g.removeNodes (distRemovalSet g s dist))).Wf :=
        hset_Wf _ h.next _ (by show h.next < h.next + 1; omega)
          (halloc_Wf h g hW)
      have h2ext : ∀ k x, hget h k = some x →
          hget (hset (halloc h g).1 h.next
            (g.removeNodes (distRemovalSet g s dist))) k = some x := by
        intro k x hk
        have hklt : k < h.next := hget_lt_next h hW k x hk
        rw [hget_hset_ne _ h.next _ k (by omega), hget_halloc_lt h g k hklt]
        exact hk
      cases hra : ra with
      | true =>
        have heq : truncate_graph_dist_obj h i s dist true =
            (hset (halloc h g).1 h.next
              (g.removeNodes (distRemovalSet g s dist)), .ok h.next) := by
          unfold truncate_graph_dist_obj; rw [hg]
          exact if_pos hsrc
        rw [heq]
        exact h2ext
      | false =>
        have heq : truncate_graph_dist_obj h i s dist false =
            (let ri := remove_isolated_nodes_obj
                (hset (halloc h g).1 h.next
                  (g.removeNodes (distRemovalSet g s dist))) h.next
             largest_component_obj ri.1 ri.2 false) := by
          unfold truncate_graph_dist_obj; rw [hg]
          exact if_pos hsrc
        rw [heq]
        intro k x hk
        have hri := ri_obj_ext (hset (halloc h g).1 h.next
          (g.removeNodes (distRemovalSet g s dist))) h2W h.next
        have hlc := lc_obj_ext _ hri.2 (remove_isolated_nodes_obj
          (hset (halloc h g).1 h.next
            (g.removeNodes (distRemovalSet g s dist))) h.next).2 false
        exact hlc.1 k x (hri.1 k x (h2ext k x hk))
    · have heq : truncate_graph_dist_obj h i s dist ra =
          (h, .error .nodeNotFound) := by
        unfold truncate_graph_dist_obj; rw [hg]
        exact if_neg hsrc
      rw [heq]
      exact fun k x hk => hk

/-- C6: no operation mutates the caller's graph: every graph object live
before a call — in particular the input graph — holds exactly the same value
(nodes, edges and attributes) after the call; only freshly allocated result
objects differ. -/
theorem C6_never_mutates_input (h : Heap) (hW : h.Wf) (i : Nat) :
    (∀ s dist ra k x, hget h k = some x →
      hget (truncate_graph_dist_obj h i s dist ra).1 k = some x) ∧
    (∀ inside ra te k x, hget h k = some x →
      hget (truncate_graph_polygon_obj h i inside ra te).1 k = some x) ∧
    (∀ inside ra te k x, hget h k = some x →
      hget (truncate_graph_bbox_obj h i inside ra te).1 k = some x) ∧
    (∀ k x, hget h k = some x →
      hget (remove_isolated_nodes_obj h i).1 k = some x) ∧
    (∀ strongly k x, hget h k = some x →
      hget (largest_component_obj h i strongly).1 k = some x) :=
  ⟨fun s dist ra => td_obj_ext h hW i s dist ra,
    fun inside ra te => tp_obj_ext h hW i inside ra te,
    fun inside ra te => tp_obj_ext h hW i inside ra te,
    (ri_obj_ext h hW i).1,
    fun strongly => (lc_obj_ext h hW i strongly).1⟩

def gC6 : Graph := { nodes := [(1, 0), (2, 0)], edges := [⟨1, 2, 0, 1, 0⟩] }

def hC6 : Heap := { objs := [(0, gC6)], next := 1 }

theorem C6_witness :
    hC6.Wf ∧ hget hC6 0 = some gC6 ∧
      hget (truncate_graph_dist_obj hC6 0 1 0 false).1 0 = some gC6 ∧
      hget (remove_isolated_nodes_obj hC6 0).1 0 = some gC6 := by
  have h := C6_never_mutates_input hC6 (by decide) 0
  exact ⟨by decide, rfl, h.1 1 0 false 0 gC6 rfl, h.2.2.2.1 0 gC6 rfl⟩

def gC3 : Graph := { nodes := [(7, 3)], edges := [] }

def hC3 : Heap := { objs := [(0, gC3)], next := 1 }

/-- C3 counterexample: object 0 holds a (weakly and strongly) connected
graph, yet largest_component returns object 0 itself with an unchanged heap:
the returned graph is the very object the caller passed in, not a fresh copy
distinct from it, so the claim as stated is false. -/
theorem C3_counterexample :
    hget hC3 0 = some gC3 ∧ isConnectedB gC3 false = true ∧
      largest_component_obj hC3 0 false = (hC3, .ok 0) := by
  exact ⟨rfl, by decide, by decide⟩

/-- C3 (amended): for a graph that is already connected under the requested
notion, largest_component returns the caller's own graph object — the same
object, not a copy — and the heap, hence the graph's node/edge sets and
attributes, are unchanged. -/
theorem C3_amended_connected_returns_input (h : Heap) (i : Nat) (g : Graph)
    (hWf : g.Wf) (strongly : Bool) (hi : hget h i = some g)
    (hne : g.nodeIds ≠ []) (hconn : AllConn g strongly) :
    largest_component_obj h i strongly = (h, .ok i) := by
  have hc : isConnectedB g strongly = true :=
    (isConnectedB_iff g hWf strongly hne).mpr hconn
  have hemp : ¬ (g.nodeIds.isEmpty = true) := by
    rw [List.isEmpty_iff]
    exact hne
  unfold largest_component_obj
  rw [hi]
  exact (if_neg hemp).trans (if_pos hc)

theorem C3_amended_witness :
    gC3.Wf ∧ hget hC3 0 = some gC3 ∧ gC3.nodeIds ≠ [] ∧
      largest_component_obj hC3 0 false = (hC3, .ok 0) := by
  refine ⟨by decide, rfl, by decide, ?_⟩
  apply C3_amended_connected_returns_input hC3 0 gC3 (by decide) false rfl
    (by decide)
  intro a ha b hb
  have ha2 : a = 7 := by simpa [gC3, Graph.nodeIds] using ha
  have hb2 : b = 7 := by simpa [gC3, Graph.nodeIds] using hb
  rw [ha2, hb2]
  exact reachesA_refl _ 7

theorem induced_nodeIds_filter (g : Graph) (pred : Nat → Bool) :
    (inducedSubgraph g (g.nodeIds.filter pred)).nodeIds =
      g.nodeIds.filter pred := by
  show (g.nodes.filter
      (fun p => decide (p.1 ∈ g.nodeIds.filter pred))).map Prod.fst =
    g.nodeIds.filter pred
  have h1 : g.nodes.filter (fun p => decide (p.1 ∈ g.nodeIds.filter pred)) =
      g.nodes.filter (fun p => pred p.1) := by
    apply List.filter_congr
    intro p hp
    have hmem : p.1 ∈ g.nodeIds := List.mem_map_of_mem _ hp
    by_cases hpred : pred p.1 = true
    · simp [List.mem_filter, hmem, hpred]
    · simp [List.mem_filter, hpred]
  rw [h1]
  have h2 : (g.nodes.map Prod.fst).filter pred =
      (g.nodes.filter (pred ∘ Prod.fst)).map Prod.fst :=
    List.filter_map Prod.fst g.nodes
  show (g.nodes.filter (fun p => pred p.1)).map Prod.fst =
    (g.nodes.map Prod.fst).filter pred
  rw [h2]
  rfl

/-- C7: on a graph that is not connected under the requested notion,
largest_component returns the subgraph induced on a connected component of
maximal cardinality: its node set is exactly such a component, and its edges
are exactly the edges of the input with both endpoints in the component. -/
theorem C7_largest_component_extracts_max (g : Graph) (hWf : g.Wf)
    (strongly : Bool) (hnc : ¬ AllConn g strongly) :
    ∃ C : List Nat,
      largest_component g strongly = .ok (inducedSubgraph g C) ∧
      (inducedSubgraph g C).nodeIds = C ∧
      (inducedSubgraph g C).edges =
        g.edges.filter (fun e => decide (e.u ∈ C) && decide (e.v ∈ C)) ∧
      IsCComp g strongly C.toFinset ∧
      ∀ D : Finset Nat, IsCComp g strongly D → D.card ≤ C.toFinset.card := by
  have hne : g.nodeIds ≠ [] := by
    intro h0
    exact hnc (fun a ha => absurd (h0 ▸ ha) (List.not_mem_nil a))
  have hcb : isConnectedB g strongly = false := by
    cases hc : isConnectedB g strongly with
    | false => rfl
    | true => exact absurd ((isConnectedB_iff g hWf strongly hne).mp hc) hnc
  obtain ⟨⟨n0, hn0, hC⟩, hmax⟩ := largestCC_spec g hWf strongly hne
  refine ⟨largestCC g strongly, ?_, ?_, rfl, ?_, ?_⟩
  · unfold largest_component
    rw [if_neg (by rw [List.isEmpty_iff]; exact hne),
      if_neg (by simp [hcb])]
  · rw [hC]
    exact induced_nodeIds_filter g (fun m => connB g strongly n0 m)
  · rw [hC]
    refine ⟨⟨n0, ?_⟩, ?_, ?_, ?_⟩
    · rw [List.mem_toFinset]
      exact self_mem_componentOf g hWf strongly n0 hn0
    · intro a ha
      rw [List.mem_toFinset, mem_componentOf g hWf] at ha
      exact ha.1
    · intro a ha b hb
      rw [List.mem_toFinset, mem_componentOf g hWf] at ha hb
      exact conn_trans g strongly a n0 b (conn_symm g strongly n0 a ha.2) hb.2
    · intro a ha b hbn hab
      rw [List.mem_toFinset, mem_componentOf g hWf] at ha ⊢
      exact ⟨hbn, conn_trans g strongly n0 a b ha.2 hab⟩
  · intro D hD
    obtain ⟨⟨d, hd⟩, hsub, hpair, hclosed⟩ := hD
    have hdn : d ∈ g.nodeIds := hsub d hd
    have hDeq : D = (componentOf g strongly d).toFinset := by
      ext x
      rw [List.mem_toFinset, mem_componentOf g hWf]
      constructor
      · intro hx
        exact ⟨hsub x hx, hpair d hd x hx⟩
      · rintro ⟨hxn, hconn⟩
        exact hclosed d hd x hxn hconn
    rw [hDeq, List.toFinset_card_of_nodup (componentOf_nodup g hWf strongly d),
      hC, List.toFinset_card_of_nodup (componentOf_nodup g hWf strongly n0),
      ← hC]
    exact hmax d hdn

def gC7 : Graph :=
  { nodes := [(1, 0), (2, 0), (3, 0)], edges := [⟨1, 2, 0, 1, 0⟩] }

theorem C7_witness :
    gC7.Wf ∧ ¬ AllConn gC7 false ∧
      ∃ C : List Nat,
        largest_component gC7 false = .ok (inducedSubgraph gC7 C) ∧
        (inducedSubgraph gC7 C).nodeIds = C ∧
        (inducedSubgraph gC7 C).edges =
          gC7.edges.filter (fun e => decide (e.u ∈ C) && decide (e.v ∈ C)) ∧
        IsCComp gC7 false C.toFinset ∧
        ∀ D : Finset Nat, IsCComp gC7 false D → D.card ≤ C.toFinset.card := by
  have hWf : gC7.Wf := by decide
  have hnc : ¬ AllConn gC7 false := by
    intro hall
    have h13 : WConn gC7 1 3 := hall 1 (by decide) 3 (by decide)
    exact absurd
      ((reachB_iff gC7 (nbrList gC7) (nbrList_closed gC7 hWf) 1 3).mpr h13)
      (by decide)
  exact ⟨hWf, hnc, C7_largest_component_extracts_max gC7 hWf false hnc⟩

/- Toward C2: every node retained by the distance truncation lies, inside the
truncated graph, on a retained shortest path from the source, so the whole
retained graph is weakly connected to the source. -/

theorem spl_self (g : Graph) (s : Nat) : spl g s s = some 0 := by
  simp [spl, pathsAux, wWalk, qminOf]

theorem spl_vertex_le (g : Graph) (hWf : g.Wf) (s x : Nat) (q : ℤ)
    (hq : spl g s x = some q) :
    ∃ p, walkB (succList g) s x p = true ∧ (s :: p).Nodup ∧
      wWalk g s p = q ∧ ∀ y ∈ p, ∃ qy, spl g s y = some qy ∧ qy ≤ q := by
  obtain ⟨p, hp, hnd, hwq⟩ := spl_attained g s x q hq
  refine ⟨p, hp, hnd, hwq, ?_⟩
  intro y hy
  obtain ⟨p1, p2, hsplit⟩ := List.append_of_mem hy
  have hp2 : p = (p1 ++ [y]) ++ p2 := by simp [hsplit]
  have hspl := walk_split (succList g) s x _ _ (hp2 ▸ hp)
  rw [lastv_append_single] at hspl
  have hreach : GReaches g s y := ⟨p1 ++ [y], hspl.1⟩
  obtain ⟨qy, hqy⟩ := spl_isSome_of_reach g (succList_closed g hWf) s y hreach
  refine ⟨qy, hqy, ?_⟩
  have h1 : qy ≤ wWalk g s (p1 ++ [y]) :=
    spl_min g (mweight_nonneg g hWf.2.2) (succList_closed g hWf) s y qy hqy _
      hspl.1
  have h2 : wWalk g s p = wWalk g s (p1 ++ [y]) + wWalk g y p2 := by
    rw [hp2, wWalk_append, lastv_append_single]
  have h3 : 0 ≤ wWalk g y p2 :=
    wWalk_nonneg_of_mw g (mweight_nonneg g hWf.2.2) y p2
  linarith [hwq]

theorem walk_in_removeNodes (g : Graph) (R : List Nat) (s t : Nat)
    (p : List Nat) (hp : walkB (succList g) s t p = true) (hs : s ∉ R)
    (hall : ∀ y ∈ p, y ∉ R) :
    walkB (succList (g.removeNodes R)) s t p = true := by
  induction p generalizing s with
  | nil => exact hp
  | cons v rest ih =>
    rw [walkB_cons_iff] at hp
    rw [walkB_cons_iff]
    constructor
    · rw [mem_succList_iff]
      obtain ⟨e, he, heu, hev⟩ := (mem_succList_iff g s v).mp hp.1
      exact ⟨e, (mem_edges_removeNodes g R e).mpr
        ⟨he, heu ▸ hs, hev ▸ hall v (List.mem_cons_self v rest)⟩, heu, hev⟩
    · exact ih v hp.2 (hall v (List.mem_cons_self v rest))
        (fun y hy => hall y (List.mem_cons_of_mem v hy))

theorem source_not_removed (g : Graph) (s : Nat) (hs : s ∈ g.nodeIds)
    (dist : ℤ) (hd : 0 ≤ dist) : s ∉ distRemovalSet g s dist := by
  intro hmem
  rcases (mem_distRemovalSet g s dist s hs).mp hmem with ⟨q', hq', hlt⟩ | hnone
  · rw [spl_self] at hq'
    injection hq' with hq'
    omega
  · rw [spl_self] at hnone
    exact Option.noConfusion hnone

theorem retained_wconn (g : Graph) (hWf : g.Wf) (s : Nat)
    (hs : s ∈ g.nodeIds) (dist : ℤ) (hd : 0 ≤ dist) :
    ∀ x ∈ (g.removeNodes (distRemovalSet g s dist)).nodeIds,
      WConn (g.removeNodes (distRemovalSet g s dist)) s x := by
  intro x hx
  rw [mem_nodeIds_removeNodes] at hx
  obtain ⟨hxn, hxr⟩ := hx
  have hqx : ∃ qx, spl g s x = some qx ∧ qx ≤ dist := by
    cases hq : spl g s x with
    | none =>
      exact absurd ((mem_distRemovalSet g s dist x hxn).mpr (Or.inr hq)) hxr
    | some qx =>
      refine ⟨qx, rfl, ?_⟩
      by_contra hgt
      push_neg at hgt
      exact hxr ((mem_distRemovalSet g s dist x hxn).mpr
        (Or.inl ⟨qx, hq, hgt⟩))
  obtain ⟨qx, hqx, hqxd⟩ := hqx
  obtain ⟨p, hp, hnd, hwq, hvert⟩ := spl_vertex_le g hWf s x qx hqx
  have hnotR : ∀ y ∈ p, y ∉ distRemovalSet g s dist := by
    intro y hy
    obtain ⟨qy, hqy, hqyle⟩ := hvert y hy
    have hyn : y ∈ g.nodeIds :=
      walk_vertex_closed (succList g) g.nodeIds (succList_closed g hWf) s x p
        hp y hy
    intro hmem
    rcases (mem_distRemovalSet g s dist y hyn).mp hmem with
      ⟨q', hq', hlt⟩ | hnone
    · rw [hqy] at hq'
      injection hq' with hq'
      omega
    · rw [hqy] at hnone
      exact Option.noConfusion hnone
  have hsr : s ∉ distRemovalSet g s dist := source_not_removed g s hs dist hd
  have hwalk1 := walk_in_removeNodes g _ s x p hp hsr hnotR
  exact ⟨p, walk_mono _ _ (fun u => succList_subset_nbrList _ u) s x p hwalk1⟩

theorem largest_component_connected (g : Graph) (strongly : Bool)
    (hne : g.nodeIds ≠ []) (hc : isConnectedB g strongly = true) :
    largest_component g strongly = .ok g := by
  unfold largest_component
  rw [if_neg (by rw [List.isEmpty_iff]; exact hne), if_pos hc]

theorem repair_keeps_source (g1 : Graph) (hWf : g1.Wf) (s : Nat)
    (hs : s ∈ g1.nodeIds) (hconn : ∀ x ∈ g1.nodeIds, WConn g1 s x)
    (g2 : Graph)
    (hok : largest_component (remove_isolated_nodes g1) false = .ok g2) :
    s ∈ g2.nodeIds := by
  by_cases hm : ∃ m ∈ g1.nodeIds, m ≠ s
  · have hnoiso : isolatedNodes g1 = [] := by
      apply List.filter_eq_nil_iff.mpr
      intro n hn
      simp only [decide_eq_true_eq, not_lt]
      by_cases hns : n = s
      · subst hns
        obtain ⟨m, hmn, hms⟩ := hm
        obtain ⟨p, hp⟩ := hconn m hmn
        cases hp0 : p with
        | nil =>
          rw [hp0, walkB_nil_iff] at hp
          exact absurd hp.symm hms
        | cons v rest =>
          rw [hp0, walkB_cons_iff] at hp
          obtain ⟨e, he, hc⟩ := (mem_nbrList_iff g1 n v).mp hp.1
          rcases hc with ⟨h1, _⟩ | ⟨h1, _⟩
          · exact degree_pos_of_edge g1 e he n (Or.inl h1)
          · exact degree_pos_of_edge g1 e he n (Or.inr h1)
      · obtain ⟨p, hp⟩ := hconn n hn
        have hpne : p ≠ [] := by
          intro h0
          rw [h0, walkB_nil_iff] at hp
          exact hns hp.symm
        obtain ⟨a, ha⟩ := walk_last_step (nbrList g1) s n p hp hpne
        obtain ⟨e, he, hc⟩ := (mem_nbrList_iff g1 a n).mp ha
        rcases hc with ⟨_, h2⟩ | ⟨_, h2⟩
        · exact degree_pos_of_edge g1 e he n (Or.inr h2)
        · exact degree_pos_of_edge g1 e he n (Or.inl h2)
    have hri : remove_isolated_nodes g1 = g1 := by
      show g1.removeNodes (isolatedNodes g1) = g1
      rw [hnoiso, removeNodes_nil]
    rw [hri] at hok
    have hcb : isConnectedB g1 false = true := by
      apply (isConnectedB_iff g1 hWf false (List.ne_nil_of_mem hs)).mpr
      intro a ha b hb
      exact conn_trans g1 false a s b (conn_symm g1 false s a (hconn a ha))
        (hconn b hb)
    rw [largest_component_connected g1 false (List.ne_nil_of_mem hs) hcb]
      at hok
    injection hok with hok
    exact hok ▸ hs
  · push_neg at hm
    by_cases hdeg : g1.degree s = 0
    · have hempty : (remove_isolated_nodes g1).nodeIds = [] := by
        cases he : (remove_isolated_nodes g1).nodeIds with
        | nil => rfl
        | cons a rest =>
          exfalso
          have ha : a ∈ (remove_isolated_nodes g1).nodeIds := by
            rw [he]
            exact List.mem_cons_self a rest
          rw [mem_nodeIds_remove_isolated] at ha
          have has : a = s := hm a ha.1
          have := has ▸ ha.2
          omega
      rw [largest_component_null _ false hempty] at hok
      exact Except.noConfusion hok
    · have hnoiso : isolatedNodes g1 = [] := by
        apply List.filter_eq_nil_iff.mpr
        intro n hn
        simp only [decide_eq_true_eq, not_lt]
        rw [hm n hn]
        omega
      have hri : remove_isolated_nodes g1 = g1 := by
        show g1.removeNodes (isolatedNodes g1) = g1
        rw [hnoiso, removeNodes_nil]
      rw [hri] at hok
      have hcb : isConnectedB g1 false = true := by
        apply (isConnectedB_iff g1 hWf false (List.ne_nil_of_mem hs)).mpr
        intro a ha b hb
        rw [hm a ha, hm b hb]
        exact conn_refl g1 false s
      rw [largest_component_connected g1 false (List.ne_nil_of_mem hs) hcb]
        at hok
      injection hok with hok
      exact hok ▸ hs

/-- C2: whenever truncate_graph_dist returns a graph — for either value of
retain_all — that graph contains the source node. -/
theorem C2_source_always_retained (g : Graph) (hWf : g.Wf) (s : Nat)
    (hs : s ∈ g.nodeIds) (dist : ℤ) (hd : 0 ≤ dist) (ra : Bool) (g2 : Graph)
    (hok : truncate_graph_dist g s dist ra = .ok g2) : s ∈ g2.nodeIds := by
  unfold truncate_graph_dist at hok
  rw [if_pos (decide_eq_true hs)] at hok
  have hs1 : s ∈ (g.removeNodes (distRemovalSet g s dist)).nodeIds :=
    (mem_nodeIds_removeNodes g _ s).mpr ⟨hs, source_not_removed g s hs dist hd⟩
  cases ra with
  | true =>
    replace hok : Except.ok (g.removeNodes (distRemovalSet g s dist)) =
        Except.ok g2 := hok
    injection hok with hok
    exact hok ▸ hs1
  | false =>
    replace hok : largest_component
        (remove_isolated_nodes (g.removeNodes (distRemovalSet g s dist)))
        false = Except.ok g2 := hok
    exact repair_keeps_source _ (removeNodes_Wf g _ hWf) s hs1
      (retained_wconn g hWf s hs dist hd) g2 hok

def gC2 : Graph :=
  { nodes := [(1, 0), (2, 0), (3, 0)],
    edges := [⟨1, 2, 0, 1, 0⟩, ⟨2, 3, 0, 9, 0⟩] }

theorem C2_witness :
    gC2.Wf ∧ (1 : Nat) ∈ gC2.nodeIds ∧ (0 : ℤ) ≤ 5 ∧
      truncate_graph_dist gC2 1 5 false =
        .ok { nodes := [(1, 0), (2, 0)], edges := [⟨1, 2, 0, 1, 0⟩] } ∧
      (1 : Nat) ∈
        ({ nodes := [(1, 0), (2, 0)],
           edges := [⟨1, 2, 0, 1, 0⟩] } : Graph).nodeIds := by
  refine ⟨by decide, by decide, by decide, by decide, ?_⟩
  exact C2_source_always_retained gC2 (by decide) 1 (by decide) 5 (by decide)
    false _ (by decide)

